import Mathlib

/-!
Verification of the gngram-lookup core: normalizer, lookup engine
(`gngram_counter/normalize.py`, `gngram_counter/lookup.py`,
`gngram_counter/data.py`), shard builder (`builder/build_hash_files.py`)
and aggregator (`builder/build_unigrams.py`).

Python strings are modelled as lists of Unicode code points (`List Nat`).
The md5 digest is an opaque parameter `md5 : Str → Str`: none of the
verified properties depend on the concrete digest, only on the digest
being a function of the normalized word.  The on-disk shard store is an
association list from 2-hex-char bucket name to the bucket's rows; an
absent key models an absent parquet file (`FileNotFoundError`).
-/

namespace Gngram

/-- A Python string: its sequence of Unicode code points. -/
abbrev Str : Type := List Nat

/-- First-match association-list lookup (dict / polars filter + row 0). -/
def lookupA {α β : Type} [DecidableEq α] : List (α × β) → α → Option β
  | [], _ => none
  | e :: rest, k => if e.1 = k then some e.2 else lookupA rest k

/-! ## Normalizer (`normalize.py`) -/

/-- Code points of `APOSTROPHE_VARIANTS` in `normalize.py`. -/
def APOSTROPHE_VARIANTS : List Nat :=
  [0x2019, 0x2018, 0x0060, 0x00B4, 0x201B, 0x2032, 0x2035, 0x02B9,
   0x02BC, 0x02C8, 0x0313, 0x0315, 0x055A, 0x05F3, 0x07F4, 0x07F5,
   0xFF07, 0x1FBF, 0x1FBD, 0xA78C]

/-- One character through `_APOSTROPHE_TABLE`: variants map to
the ASCII apostrophe (code point 39), everything else is unchanged. -/
def foldChar (c : Nat) : Nat :=
  if c ∈ APOSTROPHE_VARIANTS then 39 else c

/-- `str.translate(_APOSTROPHE_TABLE)`: characterwise apostrophe folding. -/
def normalize_apostrophes (t : Str) : Str := t.map foldChar

/-- One character through `str.lower`, restricted to the case mappings
that can interact with this normalizer's tables: the ASCII A-Z shift,
and U+A78B (capital saltillo) → U+A78C (small saltillo) — the single
Unicode case mapping whose image lies in `APOSTROPHE_VARIANTS`.  Every
other Unicode case mapping moves between code points that are neither
apostrophe variants nor whitespace, so for the properties proved here it
behaves like the identity; U+A78B is the one character on which real
lowercasing changes normalization, and it is modelled. -/
def lowerChar (c : Nat) : Nat :=
  if 65 ≤ c ∧ c ≤ 90 then c + 32
  else if c = 0xA78B then 0xA78C
  else c

/-- `str.lower`, characterwise. -/
def pyLower (t : Str) : Str := t.map lowerChar

/-- Code points Python `str.strip()` treats as whitespace. -/
def wsList : List Nat :=
  [9, 10, 11, 12, 13, 28, 29, 30, 31, 32, 133, 160, 0x1680,
   0x2000, 0x2001, 0x2002, 0x2003, 0x2004, 0x2005, 0x2006, 0x2007,
   0x2008, 0x2009, 0x200A, 0x2028, 0x2029, 0x202F, 0x205F, 0x3000]

/-- Is this code point Python whitespace? -/
def wsB (c : Nat) : Bool := c ∈ wsList

/-- `str.strip()`: drop leading and trailing whitespace. -/
def pyStrip (l : Str) : Str :=
  ((l.dropWhile wsB).reverse.dropWhile wsB).reverse

/-- `normalize` from `normalize.py`: apostrophe folding, then
lowercasing, then stripping. -/
def normalize (t : Str) : Str :=
  pyStrip (pyLower (normalize_apostrophes t))

/-! ## Lookup engine (`lookup.py`, `data.py`) -/

/-- The four per-word statistics stored in a shard row (`FrequencyData`
in `lookup.py`; also the payload the builder writes per word). -/
structure FrequencyData where
  peak_tf : Int
  peak_df : Int
  sum_tf : Int
  sum_df : Int
deriving DecidableEq

/-- The installed shard files: bucket name (2 hex chars of the digest)
to the bucket's rows, each row keyed by the digest remainder.
An absent key models an absent parquet file. -/
abbrev Store : Type := List (Str × List (Str × FrequencyData))

/-- `is_data_installed` (`data.py`): true iff at least one parquet file
is present under the data directory — it does not require all 256. -/
def is_data_installed (store : Store) : Bool := store ≠ []

/-- `get_hash_file` + `pl.read_parquet` (`_load_bucket`): `none` models
the `FileNotFoundError` raised when the bucket's file is absent. -/
def loadBucket (store : Store) (p : Str) : Option (List (Str × FrequencyData)) :=
  lookupA store p

/-- `_hash_word`: digest of the normalized word, split after 2 hex chars. -/
def hash_word (md5 : Str → Str) (word : Str) : Str × Str :=
  ((md5 (normalize word)).take 2, (md5 (normalize word)).drop 2)

/-- `_lookup_frequency`: single-form lookup, no fallbacks.  Returns
`none` for the empty word, for an absent bucket file (the caught
`FileNotFoundError`), and for a missing row. -/
def lookup_frequency (md5 : Str → Str) (store : Store) (word : Str) :
    Option FrequencyData :=
  if word = [] then none
  else
    match loadBucket store (hash_word md5 word).1 with
    | none => none
    | some bucket => lookupA bucket (hash_word md5 word).2

/-- The word `n't`. -/
def sfxNT : Str := [110, 39, 116]
/-- The word `'ll`. -/
def sfxLL : Str := [39, 108, 108]
/-- The word `'re`. -/
def sfxRE : Str := [39, 114, 101]
/-- The word `'ve`. -/
def sfxVE : Str := [39, 118, 101]
/-- The word `'m`. -/
def sfxM : Str := [39, 109]
/-- The word `'d`. -/
def sfxD : Str := [39, 100]
/-- The word `'s`. -/
def sfxS : Str := [39, 115]

/-- `CONTRACTION_SUFFIXES`, in source order. -/
def CONTRACTION_SUFFIXES : List Str := [sfxNT, sfxLL, sfxRE, sfxVE, sfxM, sfxD]

/-- `S_CONTRACTION_STEMS`: it, he, she, that, what, who, where, how,
here, there, let, somebody, everybody, everyone, nobody, anywhere,
nowhere. -/
def S_CONTRACTION_STEMS : List Str :=
  [[105, 116], [104, 101], [115, 104, 101], [116, 104, 97, 116],
   [119, 104, 97, 116], [119, 104, 111], [119, 104, 101, 114, 101],
   [104, 111, 119], [104, 101, 114, 101], [116, 104, 101, 114, 101],
   [108, 101, 116],
   [115, 111, 109, 101, 98, 111, 100, 121],
   [101, 118, 101, 114, 121, 98, 111, 100, 121],
   [101, 118, 101, 114, 121, 111, 110, 101],
   [110, 111, 98, 111, 100, 121],
   [97, 110, 121, 119, 104, 101, 114, 101],
   [110, 111, 119, 104, 101, 114, 101]]

/-- `_split_contraction`: first suffix of `CONTRACTION_SUFFIXES` that
ends the word with a non-empty stem wins; otherwise the `'s` rule fires
only for allowlisted stems. -/
def split_contraction (word : Str) : Option (Str × Str) :=
  match CONTRACTION_SUFFIXES.find?
      (fun sfx => decide (sfx <:+ word ∧ sfx.length < word.length)) with
  | some sfx => some (word.take (word.length - sfx.length), sfx)
  | none =>
    if sfxS <:+ word ∧ word.take (word.length - 2) ∈ S_CONTRACTION_STEMS then
      some (word.take (word.length - 2), sfxS)
    else none

/-- `exists` (`lookup.py`), after the installed check: direct lookup of
the normalized word, then contraction fallback on the stem. -/
def exists' (md5 : Str → Str) (store : Store) (word0 : Str) : Bool :=
  let word := normalize word0
  if lookup_frequency md5 store word ≠ none then true
  else
    match split_contraction word with
    | some (stem, _) => lookup_frequency md5 store stem ≠ none
    | none => false

/-- `frequency` (`lookup.py`), after the installed check: direct lookup,
then the stem's data via contraction fallback. -/
def frequency (md5 : Str → Str) (store : Store) (word0 : Str) :
    Option FrequencyData :=
  let word := normalize word0
  match lookup_frequency md5 store word with
  | some r => some r
  | none =>
    match split_contraction word with
    | some (stem, _) => lookup_frequency md5 store stem
    | none => none

/-- `exists` with its data-installed guard; `Except.error` models the
raised `FileNotFoundError`. -/
def existsChecked (md5 : Str → Str) (store : Store) (word : Str) :
    Except Unit Bool :=
  if is_data_installed store then .ok (exists' md5 store word) else .error ()

/-- `frequency` with its data-installed guard. -/
def frequencyChecked (md5 : Str → Str) (store : Store) (word : Str) :
    Except Unit (Option FrequencyData) :=
  if is_data_installed store then .ok (frequency md5 store word) else .error ()

/-- The direct-match pass of `batch_frequency`.  The source groups the
words by bucket so each bucket is read once; per word this computes the
same direct match, and the whole call raises (`.error`) exactly when some
queried word's bucket file is absent — `_load_bucket` is NOT wrapped in
`try/except` here, unlike in `_lookup_frequency`.  There is also no
empty-word guard in this pass. -/
def directPass (md5 : Str → Str) (store : Store) :
    List Str → Except Unit (List (Str × Option FrequencyData))
  | [] => .ok []
  | w :: rest =>
    match loadBucket store (hash_word md5 (normalize w)).1 with
    | none => .error ()
    | some bucket =>
      match directPass md5 store rest with
      | .error e => .error e
      | .ok out => .ok ((w, lookupA bucket (hash_word md5 (normalize w)).2) :: out)

/-- The per-word contraction-fallback step of `batch_frequency`, applied
to the words that had no direct match. -/
def batchFallback (md5 : Str → Str) (store : Store)
    (p : Str × Option FrequencyData) : Str × Option FrequencyData :=
  match p.2 with
  | some fd => (p.1, some fd)
  | none =>
    match split_contraction (normalize p.1) with
    | some (stem, _) => (p.1, lookup_frequency md5 store stem)
    | none => (p.1, none)

/-- `batch_frequency` (`lookup.py`): installed check, grouped direct
lookups (raising on an absent bucket file), then contraction fallback for
the unmatched words.  The result models the returned dict, keyed by the
original (unnormalized) words. -/
def batch_frequency (md5 : Str → Str) (store : Store) (words : List Str) :
    Except Unit (List (Str × Option FrequencyData)) :=
  if is_data_installed store then
    match directPass md5 store words with
    | .error e => .error e
    | .ok direct => .ok (direct.map (batchFallback md5 store))
  else .error ()

/-- The batch result's mapping applied to one requested word: `none` when
the batch call raised, `some r` when it returned a dict mapping the word
to `r`. -/
def batchResult (md5 : Str → Str) (store : Store) (words : List Str)
    (w : Str) : Option (Option FrequencyData) :=
  match batch_frequency md5 store words with
  | .error _ => none
  | .ok res => lookupA res w

/-- The direct-match result `batch_frequency` computes for one word. -/
def directOf (md5 : Str → Str) (store : Store) (w : Str) :
    Option FrequencyData :=
  match loadBucket store (hash_word md5 (normalize w)).1 with
  | none => none
  | some bucket => lookupA bucket (hash_word md5 (normalize w)).2

/-- One character through `.translate` then `.lower`. -/
def normChar (c : Nat) : Nat := lowerChar (foldChar c)

/-! ## Concrete words, toy digests and toy stores for closed instances -/

/-- The word `don't`. -/
def wDont : Str := [100, 111, 110, 39, 116]
/-- The word `don’t` with the curly apostrophe U+2019. -/
def wDontCurly : Str := [100, 111, 110, 0x2019, 116]
/-- The word `do`. -/
def wDo : Str := [100, 111]
/-- The word `dog`. -/
def wDog : Str := [100, 111, 103]
/-- The word `dog's`. -/
def wDogS : Str := [100, 111, 103, 39, 115]
/-- The word `b`. -/
def wB : Str := [98]
/-- The word `don` + U+A78B (capital saltillo) + `t`. -/
def wDontCapSal : Str := [100, 111, 110, 0xA78B, 116]
/-- The word `don` + U+A78C (small saltillo, an apostrophe variant) +
`t`: the Python lowercase of `wDontCapSal`. -/
def wDontSmallSal : Str := [100, 111, 110, 0xA78C, 116]
/-- Three spaces. -/
def wSpaces : Str := [32, 32, 32]

/-- A stand-in digest putting every word in bucket `[0, 0]`, with the word
itself as the in-bucket key (injective, so a faithful stand-in for md5). -/
def md5toy (w : Str) : Str := 0 :: 0 :: w

/-- A stand-in digest whose bucket is the word's first code point followed
by 0, so different words land in different buckets. -/
def mdPad (w : Str) : Str := w ++ [0, 0, 0, 0]

/-- A sample shard row payload. -/
def fd0 : FrequencyData := ⟨1950, 1960, 100, 10⟩

/-- A store holding only the word `do`. -/
def storeDo : Store := [([0, 0], [(wDo, fd0)])]

/-- A store holding only the word `dog`. -/
def storeDog : Store := [([0, 0], [(wDog, fd0)])]

/-- A store with one (empty) shard file `[0, 0]`: the data directory is
non-empty, but every other shard file is absent. -/
def storeOne : Store := [([0, 0], [])]

/-! ## Shard builder (`builder/build_hash_files.py`) -/

/-- `MIN_CORPUS_PAGES`. -/
def MIN_CORPUS_PAGES : Int := 1000000

/-- One aggregated input row for a word: decade, term frequency,
document frequency. -/
structure SRow where
  d : Int
  tf : Int
  df : Int
deriving DecidableEq

/-- Decade totals as aggregated by `load_decade_totals`; `none` models a
decade absent from the totals dict. -/
abbrev Totals : Type := Int → Option (Int × Int)

/-- `decade_totals.get(decade, (1, 1))`. -/
def getTot (totals : Totals) (d : Int) : Int × Int := (totals d).getD (1, 1)

/-- The builder tracks peaks for a decade iff its page total meets
`MIN_CORPUS_PAGES` (`corpus_df >= MIN_CORPUS_PAGES`). -/
def elig (totals : Totals) (d : Int) : Prop :=
  MIN_CORPUS_PAGES ≤ (getTot totals d).2

instance (totals : Totals) (d : Int) : Decidable (elig totals d) := by
  unfold elig
  infer_instance

/-- Exact rational division `a / b` for the positive denominators the
source guards with `if corpus > 0`; written with `mkRat` so concrete
instances evaluate by kernel reduction (`ratio_eq_div` bridges to `/`). -/
def ratio (a b : Int) : ℚ := mkRat a b.toNat

/-- `tf / corpus_tf if corpus_tf > 0 else 0`, in exact arithmetic. -/
def ratTf (totals : Totals) (r : SRow) : ℚ :=
  if 0 < (getTot totals r.d).1 then ratio r.tf (getTot totals r.d).1
  else 0

/-- `doc_freq / corpus_df if corpus_df > 0 else 0`, in exact arithmetic. -/
def ratDf (totals : Totals) (r : SRow) : ℚ :=
  if 0 < (getTot totals r.d).2 then ratio r.df (getTot totals r.d).2
  else 0

/-- The running per-word accumulator of the builder loop: peak tf
decade/value, peak df decade/value, and the running sums. -/
structure PState where
  ptd : Int
  ptv : ℚ
  pdd : Int
  pdv : ℚ
  stf : Int
  sdf : Int
deriving DecidableEq

/-- State for a word's first row: the word-changed branch of the loop
followed by the unconditional `sum_tf += tf; sum_df += doc_freq`. -/
def initP (totals : Totals) (r : SRow) : PState :=
  if elig totals r.d then
    ⟨r.d, ratTf totals r, r.d, ratDf totals r, r.tf, r.df⟩
  else
    ⟨0, 0, 0, 0, r.tf, r.df⟩

/-- State for a further row of the same word: strict-greater peak update
for eligible decades, then the unconditional sum update. -/
def elseStep (totals : Totals) (st : PState) (r : SRow) : PState :=
  if elig totals r.d then
    { ptd := if st.ptv < ratTf totals r then r.d else st.ptd
      ptv := if st.ptv < ratTf totals r then ratTf totals r else st.ptv
      pdd := if st.pdv < ratDf totals r then r.d else st.pdd
      pdv := if st.pdv < ratDf totals r then ratDf totals r else st.pdv
      stf := st.stf + r.tf
      sdf := st.sdf + r.df }
  else
    { st with stf := st.stf + r.tf, sdf := st.sdf + r.df }

/-- The row payload flushed for a word. -/
def summaryOf (st : PState) : FrequencyData := ⟨st.ptd, st.pdd, st.stf, st.sdf⟩

/-- The summary the builder computes for one word from its rows. -/
def summarizeWord (totals : Totals) (first : SRow) (rest : List SRow) :
    FrequencyData :=
  summaryOf (rest.foldl (elseStep totals) (initP totals first))

/-- One iteration of `main`'s row loop.  The loop state is (flushes
emitted so far, `current_word`, accumulator); a row with a new word
flushes the previous word (when there is one) and re-initializes. -/
def stepB (totals : Totals)
    (acc : List (Str × FrequencyData) × Option Str × PState)
    (row : Str × SRow) : List (Str × FrequencyData) × Option Str × PState :=
  match acc.2.1 with
  | some cw =>
    if row.1 = cw then (acc.1, some cw, elseStep totals acc.2.2 row.2)
    else (acc.1 ++ [(cw, summaryOf acc.2.2)], some row.1, initP totals row.2)
  | none => (acc.1, some row.1, initP totals row.2)

/-- The row loop from a given state, then the mandatory final flush of
the last word (no flush when `current_word` is still `None`). -/
def buildFlushesFrom (totals : Totals) (rows : List (Str × SRow))
    (acc : List (Str × FrequencyData) × Option Str × PState) :
    List (Str × FrequencyData) :=
  match rows.foldl (stepB totals) acc with
  | (out, some w, st) => out ++ [(w, summaryOf st)]
  | (out, none, _) => out

/-- All (word, summary) rows flushed by a full builder run, in order. -/
def buildFlushes (totals : Totals) (rows : List (Str × SRow)) :
    List (Str × FrequencyData) :=
  buildFlushesFrom totals rows ([], none, ⟨0, 0, 0, 0, 0, 0⟩)

/-- `buckets[pfx].append(row)` on a `defaultdict(list)` (insertion order
of first appearance, rows appended at the end). -/
def addBucket (bs : List (Str × List (Str × FrequencyData))) (p : Str)
    (e : Str × FrequencyData) : List (Str × List (Str × FrequencyData)) :=
  match bs with
  | [] => [(p, [e])]
  | b :: rest =>
    if b.1 = p then (b.1, b.2 ++ [e]) :: rest else b :: addBucket rest p e

/-- The bucket files the builder writes: each flushed word is hashed
(raw — aggregator words are already normalized) and its row appended to
the bucket named by the first 2 digest characters.  Only buckets that
received at least one word exist; `main` then writes exactly one file
per bucket (sorting each bucket's rows first). -/
def buildBuckets (md5 : Str → Str) (totals : Totals)
    (rows : List (Str × SRow)) : List (Str × List (Str × FrequencyData)) :=
  (buildFlushes totals rows).foldl
    (fun bs we => addBucket bs ((md5 we.1).take 2) ((md5 we.1).drop 2, we.2)) []

/-- The bucket-building fold from an arbitrary starting dict (used to
reason about `buildBuckets`, which starts from the empty dict). -/
def bucketsFoldFrom (md5 : Str → Str) (fl : List (Str × FrequencyData))
    (bs : List (Str × List (Str × FrequencyData))) :
    List (Str × List (Str × FrequencyData)) :=
  fl.foldl
    (fun bs we => addBucket bs ((md5 we.1).take 2) ((md5 we.1).drop 2, we.2)) bs

/-- A group of the input stream: one word with its rows (at least one). -/
structure WGroup where
  w : Str
  first : SRow
  rest : List SRow

/-- Flatten grouped rows into the builder's input stream. -/
def flattenGroups (gs : List WGroup) : List (Str × SRow) :=
  (gs.map (fun g => (g.first :: g.rest).map (fun r => (g.w, r)))).flatten

/-- The strict-greater scan the builder's peak tracking performs over
the (decade, value) pairs of a word's eligible rows, from a given
starting peak. -/
def runPeak : Int → ℚ → List (Int × ℚ) → Int × ℚ
  | d0, v0, [] => (d0, v0)
  | d0, v0, p :: rest =>
    if v0 < p.2 then runPeak p.1 p.2 rest else runPeak d0 v0 rest

/-- The rows of a word whose decades are eligible for peak tracking. -/
def eligRows (totals : Totals) (rows : List SRow) : List SRow :=
  rows.filter (fun r => decide (elig totals r.d))

/-- A row's (decade, normalized tf) pair. -/
def pairTf (totals : Totals) (r : SRow) : Int × ℚ := (r.d, ratTf totals r)

/-- A row's (decade, normalized df) pair. -/
def pairDf (totals : Totals) (r : SRow) : Int × ℚ := (r.d, ratDf totals r)

/-- Sum of a row list's term frequencies. -/
def sumTf (rows : List SRow) : Int := (rows.map SRow.tf).sum

/-- Sum of a row list's document frequencies. -/
def sumDf (rows : List SRow) : Int := (rows.map SRow.df).sum

/-- Modelled from the claim's words: the earliest entry attaining the
maximum value of the list (ties keep the earlier entry). -/
def argmaxEarliest : List (Int × ℚ) → Option (Int × ℚ)
  | [] => none
  | p :: rest =>
    match argmaxEarliest rest with
    | none => some p
    | some q => if p.2 < q.2 then some q else some p

/-- Modelled from the claim's words: the decade of the earliest maximal
entry, with the sentinel 0 when no entry is eligible. -/
def specPeak (l : List (Int × ℚ)) : Int :=
  match argmaxEarliest l with
  | some m => m.1
  | none => 0

/-- Totals with a single eligible decade, 1950. -/
def totals1950 : Totals := fun d =>
  if d = 1950 then some (1000, 2000000) else none

/-- Totals where 1790 is present but below the page threshold and 1800
is eligible. -/
def totalsCex : Totals := fun d =>
  if d = 1790 then some (10, 5)
  else if d = 1800 then some (1000, 2000000) else none

/-! ## Aggregator (`builder/build_unigrams.py`) -/

/-- One character of `ALPHA_RE`'s `[a-zA-Z]`. -/
def isAlphaChar (c : Nat) : Bool := (65 ≤ c ∧ c ≤ 90) ∨ (97 ≤ c ∧ c ≤ 122)

/-- `extract_word`: the token before the first `_`, then before the
first `.`; rejected unless nonempty and purely alphabetic; lowercased. -/
def extract_word (ngram : Str) : Option Str :=
  let p1 := ngram.takeWhile (fun c => c ≠ 95)
  let p2 := p1.takeWhile (fun c => c ≠ 46)
  if p2 ≠ [] ∧ p2.all isAlphaChar then some (pyLower p2) else none

/-- Digit-string value, or `none` when empty or not all digits. -/
def digitsVal (l : Str) : Option Nat :=
  if l ≠ [] ∧ l.all (fun c => 48 ≤ c ∧ c ≤ 57) then
    some (l.foldl (fun a c => a * 10 + (c - 48)) 0)
  else none

/-- Python `int(str)`: surrounding whitespace stripped, one optional
sign, then digits; `none` models `ValueError`. -/
def pyInt (s : Str) : Option Int :=
  match pyStrip s with
  | 43 :: rest => (digitsVal rest).map (fun n => (n : Int))
  | 45 :: rest => (digitsVal rest).map (fun n => -(n : Int))
  | t => (digitsVal t).map (fun n => (n : Int))

/-- `line.rstrip(chr(10))`. -/
def stripNL (l : Str) : Str := (l.reverse.dropWhile (fun c => c = 10)).reverse

/-- One line of `process_file`'s loop: split on tab, require 4 fields,
extract the word, parse the integers, bucket the year into its decade by
floor division.  `none` is a skipped line, never an error. -/
def parseLine (line : Str) : Option (Str × Int × Int × Int) :=
  match (stripNL line).splitOn 9 with
  | [a, b, c, d] =>
    match extract_word a, pyInt b, pyInt c, pyInt d with
    | some w, some year, some tf, some df => some (w, year.fdiv 10 * 10, tf, df)
    | _, _, _, _ => none
  | _ => none

/-- `agg[(word, decade)]` update: running (tf, df) sums per key, keys in
insertion order. -/
def addAgg (m : List ((Str × Int) × Int × Int)) (k : Str × Int)
    (tf df : Int) : List ((Str × Int) × Int × Int) :=
  match m with
  | [] => [(k, tf, df)]
  | e :: rest =>
    if e.1 = k then (e.1, e.2.1 + tf, e.2.2 + df) :: rest
    else e :: addAgg rest k tf df

/-- The aggregation dict after `process_file`'s line loop. -/
def aggOf (lines : List Str) : List ((Str × Int) × Int × Int) :=
  lines.foldl (fun m line =>
    match parseLine line with
    | some (w, dec, tf, df) => addAgg m (w, dec) tf df
    | none => m) []

/-- Python string `<`: lexicographic comparison of code points. -/
def strLt : Str → Str → Bool
  | [], [] => false
  | [], _ :: _ => true
  | _ :: _, [] => false
  | a :: s, b :: t => if a < b then true else if b < a then false else strLt s t

/-- `sorted` order on the dict keys (word, decade): Python tuple
comparison — word first, then decade. -/
def keyLe (k1 k2 : Str × Int) : Bool :=
  if strLt k1.1 k2.1 then true
  else if strLt k2.1 k1.1 then false
  else k1.2 ≤ k2.2

/-- The order `sorted(agg.items())` sorts by (keys are distinct, so the
key alone decides). -/
def relKey (e1 e2 : (Str × Int) × Int × Int) : Prop := keyLe e1.1 e2.1 = true

instance : DecidableRel relKey := fun e1 e2 => by
  unfold relKey
  infer_instance

/-- `sorted(agg.items())`. -/
def sortPairs (l : List ((Str × Int) × Int × Int)) :
    List ((Str × Int) × Int × Int) :=
  l.insertionSort relKey

/-- The line loop of `process_file` from an arbitrary starting dict. -/
def aggFrom (lines : List Str) (m : List ((Str × Int) × Int × Int)) :
    List ((Str × Int) × Int × Int) :=
  lines.foldl (fun m line =>
    match parseLine line with
    | some (w, dec, tf, df) => addAgg m (w, dec) tf df
    | none => m) m

/-- The records the line loop accepts (skipped lines contribute none). -/
def keptRecords (lines : List Str) : List (Str × Int × Int × Int) :=
  lines.filterMap parseLine

/-- The accepted records falling under one (word, decade) key. -/
def recsAt (lines : List Str) (k : Str × Int) : List (Str × Int × Int × Int) :=
  (keptRecords lines).filter (fun rec => decide ((rec.1, rec.2.1) = k))

/-- The (tf, df) sums of the accepted records at one key. -/
def sumsAt (lines : List Str) (k : Str × Int) : Int × Int :=
  (((recsAt lines k).map (fun rec => rec.2.2.1)).sum,
   ((recsAt lines k).map (fun rec => rec.2.2.2)).sum)

/-- The raw line `a<TAB>-5<TAB>1<TAB>1` (a negative year). -/
def lineNeg : Str := [97, 9, 45, 53, 9, 49, 9, 49]

/-- `process_file` as a function from input lines to the emitted rows:
aggregate, then sort by (word, decade). -/
def process_lines (lines : List Str) : List ((Str × Int) × Int × Int) :=
  sortPairs (aggOf lines)

/-- The raw line `the_DET<TAB>1950<TAB>100<TAB>10`. -/
def lineThe1 : Str :=
  [116, 104, 101, 95, 68, 69, 84, 9, 49, 57, 53, 48, 9, 49, 48, 48, 9, 49, 48]

/-- The raw line `the_DET<TAB>1955<TAB>50<TAB>5`. -/
def lineThe2 : Str :=
  [116, 104, 101, 95, 68, 69, 84, 9, 49, 57, 53, 53, 9, 53, 48, 9, 53]

/-- The word `the`. -/
def wThe : Str := [116, 104, 101]

/-! ## Normalizer lemmas -/

theorem apos_not_variant : (39 : Nat) ∉ APOSTROPHE_VARIANTS := by decide

theorem variant_not_upper : ∀ c ∈ APOSTROPHE_VARIANTS, ¬(65 ≤ c ∧ c ≤ 90) := by decide

theorem variant_not_lowshift : ∀ c ∈ APOSTROPHE_VARIANTS, ¬(97 ≤ c ∧ c ≤ 122) := by
  decide

theorem variant_not_ws : ∀ c ∈ APOSTROPHE_VARIANTS, wsB c = false := by decide

theorem foldChar_idem (c : Nat) : foldChar (foldChar c) = foldChar c := by
  by_cases h : c ∈ APOSTROPHE_VARIANTS
  · simp [foldChar, h, apos_not_variant]
  · simp [foldChar, h]

theorem lowerChar_idem (c : Nat) : lowerChar (lowerChar c) = lowerChar c := by
  by_cases hu : 65 ≤ c ∧ c ≤ 90
  · have e1 : lowerChar c = c + 32 := by
      unfold lowerChar
      rw [if_pos hu]
    have h2 : ¬(65 ≤ c + 32 ∧ c + 32 ≤ 90) := by omega
    have h3 : c + 32 ≠ 0xA78B := by omega
    rw [e1]
    unfold lowerChar
    rw [if_neg h2, if_neg h3]
  · by_cases hA : c = 0xA78B
    · subst hA
      decide
    · have e1 : lowerChar c = c := by
        unfold lowerChar
        rw [if_neg hu, if_neg hA]
      rw [e1, e1]

theorem lowerChar_ne_capSal (c : Nat) : lowerChar c ≠ 0xA78B := by
  unfold lowerChar
  by_cases hu : 65 ≤ c ∧ c ≤ 90
  · rw [if_pos hu]
    omega
  · rw [if_neg hu]
    by_cases hA : c = 0xA78B
    · rw [if_pos hA]
      decide
    · rw [if_neg hA]
      exact hA

theorem foldChar_lowerChar (c : Nat) (hc : c ≠ 0xA78B) :
    foldChar (lowerChar c) = lowerChar (foldChar c) := by
  by_cases hv : c ∈ APOSTROPHE_VARIANTS
  · have h1 : ¬(65 ≤ c ∧ c ≤ 90) := variant_not_upper c hv
    have e1 : lowerChar c = c := by
      unfold lowerChar
      rw [if_neg h1, if_neg hc]
    have e2 : foldChar c = 39 := by
      unfold foldChar
      rw [if_pos hv]
    rw [e1, e2]
    decide
  · by_cases hu : 65 ≤ c ∧ c ≤ 90
    · have e1 : lowerChar c = c + 32 := by
        unfold lowerChar
        rw [if_pos hu]
      have e2 : foldChar c = c := by
        unfold foldChar
        rw [if_neg hv]
      have h3 : c + 32 ∉ APOSTROPHE_VARIANTS := fun hm =>
        variant_not_lowshift _ hm (by omega)
      have e3 : foldChar (c + 32) = c + 32 := by
        unfold foldChar
        rw [if_neg h3]
      rw [e1, e2, e3, e1]
    · have e1 : lowerChar c = c := by
        unfold lowerChar
        rw [if_neg hu, if_neg hc]
      have e2 : foldChar c = c := by
        unfold foldChar
        rw [if_neg hv]
      rw [e1, e2, e1]

theorem wsB_foldChar (c : Nat) : wsB (foldChar c) = wsB c := by
  by_cases hv : c ∈ APOSTROPHE_VARIANTS
  · rw [foldChar, if_pos hv, variant_not_ws c hv]; decide
  · rw [foldChar, if_neg hv]

theorem wsB_lowerChar (c : Nat) : wsB (lowerChar c) = wsB c := by
  by_cases hu : 65 ≤ c ∧ c ≤ 90
  · have h1 : wsB c = false := by
      simp only [wsB, wsList, List.mem_cons, List.not_mem_nil, or_false,
        decide_eq_false_iff_not]
      omega
    have h2 : wsB (c + 32) = false := by
      simp only [wsB, wsList, List.mem_cons, List.not_mem_nil, or_false,
        decide_eq_false_iff_not]
      omega
    have e1 : lowerChar c = c + 32 := by
      unfold lowerChar
      rw [if_pos hu]
    rw [e1, h1, h2]
  · by_cases hA : c = 0xA78B
    · subst hA
      decide
    · have e1 : lowerChar c = c := by
        unfold lowerChar
        rw [if_neg hu, if_neg hA]
      rw [e1]

theorem normChar_ne_capSal (c : Nat) : normChar c ≠ 0xA78B := by
  show lowerChar (foldChar c) ≠ 0xA78B
  exact lowerChar_ne_capSal (foldChar c)

theorem normChar_idem (c : Nat) (hc : c ≠ 0xA78B) :
    normChar (normChar c) = normChar c := by
  unfold normChar
  rw [foldChar_lowerChar (foldChar c) ?_, foldChar_idem, lowerChar_idem]
  intro hf
  unfold foldChar at hf
  by_cases hv : c ∈ APOSTROPHE_VARIANTS
  · rw [if_pos hv] at hf
    cases hf
  · rw [if_neg hv] at hf
    exact hc hf

theorem normChar_lowerChar (c : Nat) (hc : c ≠ 0xA78B) :
    normChar (lowerChar c) = normChar c := by
  by_cases hu : 65 ≤ c ∧ c ≤ 90
  · have e1 : lowerChar c = c + 32 := by
      unfold lowerChar
      rw [if_pos hu]
    have hcv : c ∉ APOSTROPHE_VARIANTS := fun hm => variant_not_upper c hm hu
    have h1 : c + 32 ∉ APOSTROPHE_VARIANTS := fun hm =>
      variant_not_lowshift _ hm (by omega)
    have h2 : ¬(65 ≤ c + 32 ∧ c + 32 ≤ 90) := by omega
    have h3 : c + 32 ≠ 0xA78B := by omega
    rw [e1]
    unfold normChar foldChar lowerChar
    rw [if_neg h1, if_neg h2, if_neg h3, if_neg hcv, if_pos hu]
  · have e1 : lowerChar c = c := by
      unfold lowerChar
      rw [if_neg hu, if_neg hc]
    rw [e1]

theorem wsB_normChar (c : Nat) : wsB (normChar c) = wsB c := by
  unfold normChar
  rw [wsB_lowerChar, wsB_foldChar]

theorem dropWhile_eq_self_head {α : Type} (p : α → Bool) (l : List α)
    (h : ∀ c, l.head? = some c → p c = false) : l.dropWhile p = l := by
  cases l with
  | nil => rfl
  | cons a t =>
    rw [List.dropWhile_cons_of_neg]
    simp [h a rfl]

theorem dropWhile_idem {α : Type} (p : α → Bool) (l : List α) :
    (l.dropWhile p).dropWhile p = l.dropWhile p := by
  refine dropWhile_eq_self_head p _ (fun c hc => ?_)
  have h := List.head?_dropWhile_not p l
  rw [hc] at h
  simpa using h

theorem pyStrip_map (f : Nat → Nat) (hf : ∀ c, wsB (f c) = wsB c) (l : Str) :
    pyStrip (l.map f) = (pyStrip l).map f := by
  have hfe : (wsB ∘ f) = wsB := funext hf
  unfold pyStrip
  rw [List.dropWhile_map, hfe, ← List.map_reverse, List.dropWhile_map, hfe,
    ← List.map_reverse]

theorem pyStrip_prefix (l : Str) : pyStrip l <+: l.dropWhile wsB := by
  have h := List.dropWhile_suffix (l := (l.dropWhile wsB).reverse) wsB
  have h2 := h.reverse
  rwa [List.reverse_reverse] at h2

theorem pyStrip_head_not_ws (l : Str) :
    ∀ c, (pyStrip l).head? = some c → wsB c = false := by
  intro c hc
  obtain ⟨t', ht⟩ := pyStrip_prefix l
  have h1 : (l.dropWhile wsB).head? = some c := by
    rw [← ht]
    cases hps : pyStrip l with
    | nil => rw [hps] at hc; cases hc
    | cons a t =>
      rw [hps] at hc
      simp only [List.head?_cons, Option.some.injEq] at hc
      simp [hc]
  have h2 := List.head?_dropWhile_not wsB l
  rw [h1] at h2
  simpa using h2

theorem pyStrip_idem (l : Str) : pyStrip (pyStrip l) = pyStrip l := by
  have hA : (pyStrip l).dropWhile wsB = pyStrip l :=
    dropWhile_eq_self_head _ _ (pyStrip_head_not_ws l)
  have hB : (pyStrip l).reverse.dropWhile wsB = (pyStrip l).reverse := by
    have hr : (pyStrip l).reverse = (l.dropWhile wsB).reverse.dropWhile wsB := by
      unfold pyStrip
      rw [List.reverse_reverse]
    rw [hr, dropWhile_idem]
  show (((pyStrip l).dropWhile wsB).reverse.dropWhile wsB).reverse = pyStrip l
  rw [hA, hB, List.reverse_reverse]

theorem normalize_eq_strip_map (t : Str) :
    normalize t = pyStrip (t.map normChar) := by
  unfold normalize pyLower normalize_apostrophes normChar
  rw [List.map_map]
  rfl

theorem pyStrip_ne_nil {l : Str} (c : Nat) (hmem : c ∈ l) (hws : wsB c = false) :
    pyStrip l ≠ [] := by
  intro h
  unfold pyStrip at h
  rw [List.reverse_eq_nil_iff] at h
  have h3 := List.dropWhile_eq_nil_iff.mp h
  have hcd : c ∈ l.dropWhile wsB := by
    have := List.takeWhile_append_dropWhile (p := wsB) (l := l)
    rw [← this] at hmem
    rcases List.mem_append.mp hmem with hmt | hmd
    · exact absurd (List.mem_takeWhile_imp hmt) (by simp [hws])
    · exact hmd
  have := h3 c (List.mem_reverse.mpr hcd)
  rw [hws] at this
  cases this

theorem pyStrip_subset (l : Str) : ∀ x ∈ pyStrip l, x ∈ l := by
  intro x hx
  have hp := pyStrip_prefix l
  have h1 : x ∈ l.dropWhile wsB := hp.sublist.subset hx
  exact (List.dropWhile_suffix wsB).sublist.subset h1

theorem capSal_not_mem_normalize (t : Str) : (0xA78B : Nat) ∉ normalize t := by
  rw [normalize_eq_strip_map]
  intro hmem
  have h1 := pyStrip_subset _ _ hmem
  obtain ⟨c, _, he⟩ := List.mem_map.mp h1
  exact normChar_ne_capSal c he

theorem normalize_idem (t : Str) (ht : (0xA78B : Nat) ∉ t) :
    normalize (normalize t) = normalize t := by
  rw [normalize_eq_strip_map t, normalize_eq_strip_map]
  calc pyStrip ((pyStrip (t.map normChar)).map normChar)
      = (pyStrip (pyStrip (t.map normChar))).map normChar :=
        pyStrip_map normChar wsB_normChar _
    _ = (pyStrip (t.map normChar)).map normChar := by rw [pyStrip_idem]
    _ = pyStrip ((t.map normChar).map normChar) :=
        (pyStrip_map normChar wsB_normChar _).symm
    _ = pyStrip (t.map normChar) := by
        rw [List.map_map]
        have hm : List.map (normChar ∘ normChar) t = List.map normChar t :=
          List.map_congr_left (fun c hc =>
            normChar_idem c (fun he => ht (he ▸ hc)))
        rw [hm]

theorem normalize_pyLower (t : Str) (ht : (0xA78B : Nat) ∉ t) :
    normalize (pyLower t) = normalize t := by
  rw [normalize_eq_strip_map, normalize_eq_strip_map t, pyLower, List.map_map]
  have hm : List.map (normChar ∘ lowerChar) t = List.map normChar t :=
    List.map_congr_left (fun c hc =>
      normChar_lowerChar c (fun he => ht (he ▸ hc)))
  rw [hm]

theorem normalize_pyStrip (t : Str) : normalize (pyStrip t) = normalize t := by
  rw [normalize_eq_strip_map, normalize_eq_strip_map t,
    ← pyStrip_map normChar wsB_normChar, pyStrip_idem]

/-! ## Split/lookup lemmas -/

theorem allowlist_ne_nil : ∀ s ∈ S_CONTRACTION_STEMS, s ≠ [] := by decide

theorem split_stem_prefix {w s sf : Str}
    (h : split_contraction w = some (s, sf)) : s <+: w ∧ s ≠ [] := by
  unfold split_contraction at h
  cases hf : CONTRACTION_SUFFIXES.find?
      (fun sfx => decide (sfx <:+ w ∧ sfx.length < w.length)) with
  | some sfx =>
    rw [hf] at h
    have hp := List.find?_some hf
    have hlen := (of_decide_eq_true hp).2
    simp only [Option.some.injEq, Prod.mk.injEq] at h
    obtain ⟨h1, _⟩ := h
    subst h1
    refine ⟨List.take_prefix _ _, fun hnil => ?_⟩
    have hlg := congrArg List.length hnil
    simp only [List.length_take, List.length_nil] at hlg
    omega
  | none =>
    rw [hf] at h
    by_cases hc : sfxS <:+ w ∧ w.take (w.length - 2) ∈ S_CONTRACTION_STEMS
    · rw [if_pos hc] at h
      simp only [Option.some.injEq, Prod.mk.injEq] at h
      obtain ⟨h1, _⟩ := h
      subst h1
      exact ⟨List.take_prefix _ _, allowlist_ne_nil _ hc.2⟩
    · rw [if_neg hc] at h
      cases h

theorem last_of_suffix {l s : Str} (hs : s <:+ l) (hn : s ≠ []) :
    l.getLast? = s.getLast? := by
  obtain ⟨p, hp⟩ := hs
  subst hp
  rw [List.getLast?_append_of_ne_nil _ hn]

theorem split_contraction_none_of_sS {w : Str}
    (hsuf : sfxS <:+ w)
    (hmem : w.take (w.length - 2) ∉ S_CONTRACTION_STEMS) :
    split_contraction w = none := by
  have hlast : w.getLast? = some 115 := by
    rw [last_of_suffix hsuf (by decide)]
    decide
  have hfind : CONTRACTION_SUFFIXES.find?
      (fun sfx => decide (sfx <:+ w ∧ sfx.length < w.length)) = none := by
    rw [List.find?_eq_none]
    intro sfx hsfx
    fin_cases hsfx <;>
      (intro hp
       have h1 := (of_decide_eq_true hp).1
       have hl := last_of_suffix h1 (by decide)
       rw [hlast] at hl
       exact absurd hl (by decide))
  unfold split_contraction
  rw [hfind]
  rw [if_neg (fun hc => hmem hc.2)]

theorem normalize_stem_ne_nil {w s sf : Str}
    (hsplit : split_contraction (normalize w) = some (s, sf)) :
    s ≠ [] ∧ normalize s ≠ [] := by
  obtain ⟨hpre, hne⟩ := split_stem_prefix hsplit
  refine ⟨hne, ?_⟩
  cases hs : s with
  | nil => exact absurd hs hne
  | cons c t =>
    have hh : (normalize w).head? = some c := by
      obtain ⟨t', ht⟩ := hpre
      rw [← ht, hs]
      simp
    have hws : wsB c = false := by
      apply pyStrip_head_not_ws (w.map normChar) c
      rw [← normalize_eq_strip_map]
      exact hh
    rw [normalize_eq_strip_map]
    apply pyStrip_ne_nil (normChar c)
    · exact List.mem_map_of_mem _ (List.mem_cons_self c t)
    · rw [wsB_normChar]
      exact hws

theorem lookup_frequency_normalize (md5 : Str → Str) (store : Store) (s : Str)
    (hs : s ≠ []) (hn : normalize s ≠ []) (hA : (0xA78B : Nat) ∉ s) :
    lookup_frequency md5 store (normalize s) = lookup_frequency md5 store s := by
  unfold lookup_frequency
  rw [if_neg hn, if_neg hs]
  unfold hash_word
  rw [normalize_idem s hA]

/-! ## Claim C8: normalization determines hashing and lookup -/

/-- C8: if two inputs normalize to the same string they hash identically
and resolve to the same lookup results; querying `don’t` (curly
apostrophe) gives the identical result to `don't`; surrounding
whitespace on an input never changes its normalization; and lowercasing
never changes the normalization of an input free of U+A78B (the capital
saltillo, the one cased character whose Python lowercase U+A78C is a
member of `APOSTROPHE_VARIANTS`). -/
theorem claim_C8_normalization_determines_lookup
    (md5 : Str → Str) (store : Store) (w1 w2 w3 : Str)
    (h : normalize w1 = normalize w2)
    (h3 : (0xA78B : Nat) ∉ w3) :
    hash_word md5 w1 = hash_word md5 w2
    ∧ frequency md5 store w1 = frequency md5 store w2
    ∧ exists' md5 store w1 = exists' md5 store w2
    ∧ frequency md5 store wDontCurly = frequency md5 store wDont
    ∧ exists' md5 store wDontCurly = exists' md5 store wDont
    ∧ normalize (pyLower w3) = normalize w3
    ∧ normalize (pyStrip w3) = normalize w3 := by
  have hc : normalize wDontCurly = normalize wDont := by decide
  refine ⟨?_, ?_, ?_, ?_, ?_, normalize_pyLower w3 h3, normalize_pyStrip w3⟩
  · unfold hash_word
    rw [h]
  · unfold frequency
    rw [h]
  · unfold exists'
    rw [h]
  · unfold frequency
    rw [hc]
  · unfold exists'
    rw [hc]

/-- Witness for C8 at `DO` vs `do` over a concrete store. -/
theorem claim_C8_witness :
    (0xA78B : Nat) ∉ wDog
    ∧ (hash_word md5toy [68, 79] = hash_word md5toy wDo
    ∧ frequency md5toy storeDo [68, 79] = frequency md5toy storeDo wDo
    ∧ exists' md5toy storeDo [68, 79] = exists' md5toy storeDo wDo
    ∧ frequency md5toy storeDo wDontCurly = frequency md5toy storeDo wDont
    ∧ exists' md5toy storeDo wDontCurly = exists' md5toy storeDo wDont
    ∧ normalize (pyLower wDog) = normalize wDog
    ∧ normalize (pyStrip wDog) = normalize wDog) :=
  ⟨by decide,
    claim_C8_normalization_determines_lookup md5toy storeDo [68, 79] wDo wDog
      (by decide) (by decide)⟩

/-- C8 counterexample: Python `str.lower()` maps U+A78B (capital
saltillo) to U+A78C, which is in `APOSTROPHE_VARIANTS`; since apostrophe
folding runs before lowercasing in `normalize`, the word
`don` + U+A78B + `t` and its Python lowercase `don` + U+A78C + `t`
normalize differently, and over a store holding `do` the lowercase form
resolves through the contraction fallback while the original is
not-found — so casing can change a lookup's outcome. -/
theorem claim_C8_counterexample :
    pyLower wDontCapSal = wDontSmallSal
    ∧ normalize (pyLower wDontCapSal) ≠ normalize wDontCapSal
    ∧ frequency md5toy storeDo wDontCapSal = none
    ∧ frequency md5toy storeDo (pyLower wDontCapSal) = some fd0
    ∧ exists' md5toy storeDo wDontCapSal = false
    ∧ exists' md5toy storeDo (pyLower wDontCapSal) = true := by
  refine ⟨by decide, by decide, ?_, ?_, ?_, ?_⟩ <;> rfl

/-! ## Claim C9: possessives are never split -/

/-- C9: a word ending in `'s` whose stem is not in the allowlist is not
split: `frequency` reduces to the direct lookup of the normalized word
and `exists` agrees with it; concretely, `dog's` is not-found over a
store holding `dog` directly. -/
theorem claim_C9_possessive_not_split (md5 : Str → Str) (store : Store)
    (w : Str)
    (hsuf : sfxS <:+ normalize w)
    (hmem : (normalize w).take ((normalize w).length - 2) ∉ S_CONTRACTION_STEMS) :
    frequency md5 store w = lookup_frequency md5 store (normalize w)
    ∧ exists' md5 store w = decide (lookup_frequency md5 store (normalize w) ≠ none)
    ∧ frequency md5toy storeDog wDogS = none
    ∧ lookup_frequency md5toy storeDog wDog = some fd0 := by
  have hsp := split_contraction_none_of_sS hsuf hmem
  refine ⟨?_, ?_, by decide, by decide⟩
  · cases hlk : lookup_frequency md5 store (normalize w) <;>
      simp [frequency, hsp, hlk]
  · cases hlk : lookup_frequency md5 store (normalize w) <;>
      simp [exists', hsp, hlk]

/-- Witness for C9 at `dog's` over a store holding `dog`. -/
theorem claim_C9_witness :
    frequency md5toy storeDog wDogS
        = lookup_frequency md5toy storeDog (normalize wDogS)
    ∧ exists' md5toy storeDog wDogS
        = decide (lookup_frequency md5toy storeDog (normalize wDogS) ≠ none)
    ∧ frequency md5toy storeDog wDogS = none
    ∧ lookup_frequency md5toy storeDog wDog = some fd0 :=
  claim_C9_possessive_not_split md5toy storeDog wDogS (by decide) (by decide)

/-! ## Claim C10: exists and frequency agree -/

/-- C10: with data installed, `exists` is true exactly when `frequency`
returns a summary — they share the same normalization, direct-lookup and
fallback sequence — and the empty and whitespace-only inputs are
not-found for both. -/
theorem claim_C10_exists_iff_frequency (md5 : Str → Str) (store : Store)
    (w : Str) (hinst : is_data_installed store = true) :
    (exists' md5 store w = true ↔ frequency md5 store w ≠ none)
    ∧ existsChecked md5 store w = .ok (exists' md5 store w)
    ∧ frequencyChecked md5 store w = .ok (frequency md5 store w)
    ∧ frequency md5 store [] = none
    ∧ exists' md5 store [] = false
    ∧ frequency md5 store wSpaces = none
    ∧ exists' md5 store wSpaces = false := by
  have hemp : ∀ u : Str, normalize u = [] →
      frequency md5 store u = none ∧ exists' md5 store u = false := by
    intro u hu
    have hlk : lookup_frequency md5 store (normalize u) = none := by
      rw [hu]
      simp [lookup_frequency]
    have hsp : split_contraction (normalize u) = none := by
      rw [hu]
      decide
    exact ⟨by simp [frequency, hlk, hsp], by simp [exists', hlk, hsp]⟩
  have hiff : exists' md5 store w = true ↔ frequency md5 store w ≠ none := by
    cases hlk : lookup_frequency md5 store (normalize w) with
    | some r => simp [exists', frequency, hlk]
    | none =>
      cases hsp : split_contraction (normalize w) with
      | none => simp [exists', frequency, hlk, hsp]
      | some p =>
        obtain ⟨stem, sf⟩ := p
        simp [exists', frequency, hlk, hsp]
  have h1 := hemp [] (by decide)
  have h2 := hemp wSpaces (by decide)
  exact ⟨hiff, by simp [existsChecked, hinst], by simp [frequencyChecked, hinst],
    h1.1, h1.2, h2.1, h2.2⟩

/-- Witness for C10 over a concrete installed store. -/
theorem claim_C10_witness :
    (exists' md5toy storeDo wDo = true ↔ frequency md5toy storeDo wDo ≠ none)
    ∧ existsChecked md5toy storeDo wDo = .ok (exists' md5toy storeDo wDo)
    ∧ frequencyChecked md5toy storeDo wDo = .ok (frequency md5toy storeDo wDo)
    ∧ frequency md5toy storeDo [] = none
    ∧ exists' md5toy storeDo [] = false
    ∧ frequency md5toy storeDo wSpaces = none
    ∧ exists' md5toy storeDo wSpaces = false :=
  claim_C10_exists_iff_frequency md5toy storeDo wDo (by decide)

/-! ## Claim C2: contraction fallback law -/

/-- C2: when the normalized word splits as (stem, suffix), its direct
lookup fails, and the stem is in the store, then `frequency` of the word
is the stem's data (looked up directly, not re-split), `frequency` of the
word equals `frequency` of the stem, and `exists` is true of both. -/
theorem claim_C2_contraction_fallback (md5 : Str → Str) (store : Store)
    (w s sf : Str) (fd : FrequencyData)
    (hsplit : split_contraction (normalize w) = some (s, sf))
    (hdirect : lookup_frequency md5 store (normalize w) = none)
    (hstem : lookup_frequency md5 store s = some fd) :
    frequency md5 store w = some fd
    ∧ frequency md5 store s = some fd
    ∧ frequency md5 store w = frequency md5 store s
    ∧ exists' md5 store w = true
    ∧ exists' md5 store s = true := by
  obtain ⟨hs_ne, hns_ne⟩ := normalize_stem_ne_nil hsplit
  have hstp := split_stem_prefix hsplit
  have hA : (0xA78B : Nat) ∉ s := fun hm =>
    capSal_not_mem_normalize w (hstp.1.sublist.subset hm)
  have hlkns : lookup_frequency md5 store (normalize s) = some fd := by
    rw [lookup_frequency_normalize md5 store s hs_ne hns_ne hA]
    exact hstem
  have h1 : frequency md5 store w = some fd := by
    simp [frequency, hdirect, hsplit, hstem]
  have h2 : frequency md5 store s = some fd := by
    simp [frequency, hlkns]
  have h4 : exists' md5 store w = true := by
    simp [exists', hdirect, hsplit, hstem]
  have h5 : exists' md5 store s = true := by
    simp [exists', hlkns]
  exact ⟨h1, h2, h1.trans h2.symm, h4, h5⟩

/-- Witness for C2 at `don't` over a store holding `do`. -/
theorem claim_C2_witness :
    frequency md5toy storeDo wDont = some fd0
    ∧ frequency md5toy storeDo wDo = some fd0
    ∧ frequency md5toy storeDo wDont = frequency md5toy storeDo wDo
    ∧ exists' md5toy storeDo wDont = true
    ∧ exists' md5toy storeDo wDo = true :=
  claim_C2_contraction_fallback md5toy storeDo wDont wDo sfxNT fd0
    (by decide) (by decide) (by decide)

/-! ## Claim C1: batch versus single lookups -/

theorem directPass_ok (md5 : Str → Str) (store : Store) :
    ∀ words : List Str,
      (∀ u ∈ words, loadBucket store (hash_word md5 (normalize u)).1 ≠ none) →
      directPass md5 store words
        = .ok (words.map (fun u => (u, directOf md5 store u)))
  | [], _ => rfl
  | w :: rest, h => by
    have hw := h w (List.mem_cons_self w rest)
    cases hb : loadBucket store (hash_word md5 (normalize w)).1 with
    | none => exact absurd hb hw
    | some bucket =>
      have ih := directPass_ok md5 store rest
        (fun u hu => h u (List.mem_cons_of_mem w hu))
      simp [directPass, hb, ih, directOf]

theorem directOf_eq (md5 : Str → Str) (store : Store) (w : Str)
    (hne : normalize w ≠ []) :
    directOf md5 store w = lookup_frequency md5 store (normalize w) := by
  unfold directOf lookup_frequency
  rw [if_neg hne]

theorem batchFallback_eq (md5 : Str → Str) (store : Store) (w : Str)
    (hne : normalize w ≠ []) :
    batchFallback md5 store (w, directOf md5 store w)
      = (w, frequency md5 store w) := by
  cases hlk : lookup_frequency md5 store (normalize w) with
  | some r =>
    simp [batchFallback, frequency, directOf_eq md5 store w hne, hlk]
  | none =>
    cases hsp : split_contraction (normalize w) with
    | none =>
      simp [batchFallback, frequency, directOf_eq md5 store w hne, hlk, hsp]
    | some p =>
      obtain ⟨stem, sf⟩ := p
      simp [batchFallback, frequency, directOf_eq md5 store w hne, hlk, hsp]

theorem lookupA_map_self {α β : Type} [DecidableEq α] (f : α → β) :
    ∀ (ws : List α) (w : α), w ∈ ws →
      lookupA (ws.map (fun x => (x, f x))) w = some (f w)
  | [], w, hw => absurd hw (List.not_mem_nil w)
  | a :: t, w, hw => by
    simp only [List.map_cons, lookupA]
    by_cases he : a = w
    · subst he
      simp
    · rw [if_neg he]
      exact lookupA_map_self f t w
        ((List.mem_cons.mp hw).resolve_left (fun h => he h.symm))

/-- C1 (amended): provided every queried word's shard file is present and
no queried word normalizes to the empty string, the batch result maps
each requested word to exactly `frequency` of that word (duplicates
included, since the mapping is keyed by word content). -/
theorem claim_C1_batch_matches_single (md5 : Str → Str) (store : Store)
    (words : List Str) (w : Str)
    (hw : w ∈ words)
    (hbuckets : ∀ u ∈ words,
      loadBucket store (hash_word md5 (normalize u)).1 ≠ none)
    (hne : ∀ u ∈ words, normalize u ≠ []) :
    batchResult md5 store words w = some (frequency md5 store w) := by
  have hinst : is_data_installed store = true := by
    cases hs : store with
    | nil =>
      subst hs
      have := hbuckets w hw
      simp [loadBucket, lookupA] at this
    | cons b bs => simp [is_data_installed, hs]
  have hdp := directPass_ok md5 store words hbuckets
  have hmaps : (words.map (fun u => (u, directOf md5 store u))).map
      (batchFallback md5 store) = words.map (fun u => (u, frequency md5 store u)) := by
    rw [List.map_map]
    exact List.map_congr_left (fun u hu => batchFallback_eq md5 store u (hne u hu))
  unfold batchResult batch_frequency
  rw [if_pos hinst, hdp]
  simp only [hmaps]
  exact lookupA_map_self (frequency md5 store) words w hw

/-- Witness for C1 at a two-word batch over a concrete store. -/
theorem claim_C1_witness :
    batchResult md5toy storeDo [wDont, wDo] wDont
      = some (frequency md5toy storeDo wDont) :=
  claim_C1_batch_matches_single md5toy storeDo [wDont, wDo] wDont
    (by decide) (by decide) (by decide)

/-- C1 counterexample: the claim fails for a word whose shard file is
absent — with the data directory non-empty (one shard file on disk),
`batch_frequency` raises `FileNotFoundError` for a word hashing to an
absent shard, while `frequency` reports not-found for the same word, so
no batch mapping for the word exists at all. -/
theorem claim_C1_counterexample :
    is_data_installed storeOne = true
    ∧ loadBucket storeOne (hash_word mdPad (normalize wB)).1 = none
    ∧ batch_frequency mdPad storeOne [wB] = .error ()
    ∧ frequency mdPad storeOne wB = none
    ∧ batchResult mdPad storeOne [wB] wB = none :=
  ⟨by decide, by decide, by rfl, by decide, by decide⟩

/-! ## Claim C3: missing-data failure versus not-found -/

/-- C3 (amended): when no shard file at all is installed, `exists`,
`frequency` and `batch_frequency` all raise the data-not-installed
failure before any lookup, and that failure is distinct from the
not-found result; but when at least one shard file is present and the
queried word's own shard file is absent, `exists`/`frequency` report
not-found (here for a word with no contraction split) instead of
raising. -/
theorem claim_C3_missing_data (md5 : Str → Str) (store store2 : Store)
    (w w2 : Str) (ws : List Str)
    (hnot : is_data_installed store = false)
    (hinst2 : is_data_installed store2 = true)
    (habsent : loadBucket store2 (hash_word md5 (normalize w2)).1 = none)
    (hnosplit : split_contraction (normalize w2) = none) :
    existsChecked md5 store w = .error ()
    ∧ frequencyChecked md5 store w = .error ()
    ∧ batch_frequency md5 store ws = .error ()
    ∧ frequencyChecked md5 store w ≠ .ok none
    ∧ frequencyChecked md5 store2 w2 = .ok none
    ∧ existsChecked md5 store2 w2 = .ok false := by
  have hlk : lookup_frequency md5 store2 (normalize w2) = none := by
    unfold lookup_frequency
    by_cases hz : normalize w2 = []
    · rw [if_pos hz]
    · rw [if_neg hz]
      simp [habsent]
  have hfq : frequency md5 store2 w2 = none := by
    simp [frequency, hlk, hnosplit]
  have hex : exists' md5 store2 w2 = false := by
    simp [exists', hlk, hnosplit]
  have herr : frequencyChecked md5 store w = .error () := by
    simp [frequencyChecked, hnot]
  refine ⟨by simp [existsChecked, hnot], herr, by simp [batch_frequency, hnot],
    ?_, by simp [frequencyChecked, hinst2, hfq], by simp [existsChecked, hinst2, hex]⟩
  rw [herr]
  intro hco
  cases hco

/-- Witness for C3: an empty data directory raises; a store holding only
an unrelated shard file reports not-found for a word with an absent
shard file. -/
theorem claim_C3_witness :
    existsChecked mdPad [] wDo = .error ()
    ∧ frequencyChecked mdPad [] wDo = .error ()
    ∧ batch_frequency mdPad [] [wDo] = .error ()
    ∧ frequencyChecked mdPad [] wDo ≠ .ok none
    ∧ frequencyChecked mdPad storeOne wB = .ok none
    ∧ existsChecked mdPad storeOne wB = .ok false :=
  claim_C3_missing_data mdPad [] storeOne wDo wB [wDo]
    (by decide) (by decide) (by decide) (by decide)

/-- C3 counterexample: with data "installed" (one shard file present)
but the queried word's shard file absent, the lookup reports not-found
(`.ok none`) rather than raising — refuting "a lookup never reports
not-found merely because the queried word's shard file is absent". -/
theorem claim_C3_counterexample :
    is_data_installed storeOne = true
    ∧ loadBucket storeOne (hash_word mdPad (normalize wB)).1 = none
    ∧ frequencyChecked mdPad storeOne wB = .ok none
    ∧ existsChecked mdPad storeOne wB = .ok false :=
  ⟨by decide, by decide, by rfl, by rfl⟩

/-! ## Peak-selection lemmas (builder) -/

theorem ratio_eq_div (a b : Int) (hb : 0 < b) :
    ratio a b = (a : ℚ) / (b : ℚ) := by
  unfold ratio
  rw [Rat.mkRat_eq_div]
  congr 1
  exact_mod_cast Int.toNat_of_nonneg hb.le

theorem runPeak_max : ∀ (l : List (Int × ℚ)) (d0 : Int) (v0 : ℚ),
    v0 ≤ (runPeak d0 v0 l).2 ∧ ∀ p ∈ l, p.2 ≤ (runPeak d0 v0 l).2
  | [], d0, v0 => by simp [runPeak]
  | q :: rest, d0, v0 => by
    by_cases hlt : v0 < q.2
    · have ih := runPeak_max rest q.1 q.2
      simp only [runPeak, if_pos hlt]
      exact ⟨le_of_lt (lt_of_lt_of_le hlt ih.1),
        fun p hp => by
          rcases List.mem_cons.mp hp with h | h
          · rw [h]
            exact ih.1
          · exact ih.2 p h⟩
    · have ih := runPeak_max rest d0 v0
      simp only [runPeak, if_neg hlt]
      exact ⟨ih.1,
        fun p hp => by
          rcases List.mem_cons.mp hp with h | h
          · rw [h]
            exact le_trans (not_lt.mp hlt) ih.1
          · exact ih.2 p h⟩

theorem runPeak_split : ∀ (l : List (Int × ℚ)) (d0 : Int) (v0 : ℚ),
    ∃ l1 l2, (d0, v0) :: l = l1 ++ (runPeak d0 v0 l) :: l2
      ∧ ∀ p ∈ l1, p.2 < (runPeak d0 v0 l).2
  | [], d0, v0 => ⟨[], [], by simp [runPeak], by simp⟩
  | q :: rest, d0, v0 => by
    by_cases hlt : v0 < q.2
    · obtain ⟨l1, l2, heq, hstr⟩ := runPeak_split rest q.1 q.2
      refine ⟨(d0, v0) :: l1, l2, ?_, ?_⟩
      · simp only [runPeak, if_pos hlt]
        have heq' : q :: rest = l1 ++ runPeak q.1 q.2 rest :: l2 := heq
        rw [List.cons_append, ← heq']
      · intro p hp
        simp only [runPeak, if_pos hlt]
        rcases List.mem_cons.mp hp with h | h
        · rw [h]
          exact lt_of_lt_of_le hlt (runPeak_max rest q.1 q.2).1
        · exact hstr p h
    · obtain ⟨l1, l2, heq, hstr⟩ := runPeak_split rest d0 v0
      cases l1 with
      | nil =>
        simp only [List.nil_append] at heq
        have hr0 : runPeak d0 v0 rest = (d0, v0) := by
          injection heq with h1 _
          exact h1.symm
        refine ⟨[], q :: rest, ?_, by simp⟩
        simp only [runPeak, if_neg hlt, List.nil_append, hr0]
      | cons x l1t =>
        rw [List.cons_append] at heq
        injection heq with h1 h2
        refine ⟨(d0, v0) :: q :: l1t, l2, ?_, ?_⟩
        · simp only [runPeak, if_neg hlt, List.cons_append]
          conv_lhs => rw [h2]
        · intro p hp
          simp only [runPeak, if_neg hlt]
          have hd : ((d0, v0) : Int × ℚ).2 < (runPeak d0 v0 rest).2 := by
            have := hstr x (List.mem_cons_self x l1t)
            rwa [← h1] at this
          rcases List.mem_cons.mp hp with h | h
          · rw [h]
            exact hd
          · rcases List.mem_cons.mp h with h' | h'
            · rw [h']
              exact lt_of_le_of_lt (not_lt.mp hlt) hd
            · exact hstr p (List.mem_cons_of_mem x h')

theorem argmaxEarliest_eq_none : ∀ l : List (Int × ℚ),
    argmaxEarliest l = none ↔ l = []
  | [] => by simp [argmaxEarliest]
  | p :: rest => by
    simp only [argmaxEarliest]
    cases argmaxEarliest rest with
    | none => simp
    | some q =>
      by_cases h : p.2 < q.2 <;> simp [h]

theorem argmaxEarliest_spec : ∀ (l : List (Int × ℚ)) (m : Int × ℚ),
    argmaxEarliest l = some m →
    ∃ l1 l2, l = l1 ++ m :: l2 ∧ (∀ p ∈ l, p.2 ≤ m.2) ∧ ∀ p ∈ l1, p.2 < m.2
  | [], m, h => by cases h
  | p :: rest, m, h => by
    simp only [argmaxEarliest] at h
    cases hr : argmaxEarliest rest with
    | none =>
      rw [hr] at h
      have h2 : some p = some m := h
      have hre : rest = [] := (argmaxEarliest_eq_none rest).mp hr
      subst hre
      injection h2 with h2
      subst h2
      exact ⟨[], [], rfl, by simp, by simp⟩
    | some q =>
      rw [hr] at h
      have h2 : (if p.2 < q.2 then some q else some p) = some m := h
      obtain ⟨l1, l2, heq, hmax, hstr⟩ := argmaxEarliest_spec rest q hr
      by_cases hpq : p.2 < q.2
      · rw [if_pos hpq] at h2
        injection h2 with h2
        subst h2
        refine ⟨p :: l1, l2, by rw [heq, List.cons_append], ?_, ?_⟩
        · intro x hx
          rcases List.mem_cons.mp hx with h' | h'
          · rw [h']
            exact le_of_lt hpq
          · exact hmax x h'
        · intro x hx
          rcases List.mem_cons.mp hx with h' | h'
          · rw [h']
            exact hpq
          · exact hstr x h'
      · rw [if_neg hpq] at h2
        injection h2 with h2
        subst h2
        refine ⟨[], rest, rfl, ?_, by simp⟩
        intro x hx
        rcases List.mem_cons.mp hx with h' | h'
        · rw [h']
        · exact le_trans (hmax x h') (not_lt.mp hpq)

theorem firstMax_unique : ∀ (l1 : List (Int × ℚ)) {l l2 l1' l2' : List (Int × ℚ)}
    {m m' : Int × ℚ},
    l = l1 ++ m :: l2 → l = l1' ++ m' :: l2' →
    (∀ p ∈ l, p.2 ≤ m.2) → (∀ p ∈ l, p.2 ≤ m'.2) →
    (∀ p ∈ l1, p.2 < m.2) → (∀ p ∈ l1', p.2 < m'.2) → m = m'
  | [], l, l2, l1', l2', m, m', h, h', hm, hm', hs, hs' => by
    subst h
    cases l1' with
    | nil =>
      simp only [List.nil_append] at h'
      exact (List.cons_eq_cons.mp h').1
    | cons x t =>
      simp only [List.nil_append, List.cons_append] at h'
      obtain ⟨h1, h2⟩ := List.cons_eq_cons.mp h'
      -- x is the head of l, so x = m; x ∈ l1' gives m.2 < m'.2;
      -- but m' ∈ l gives m'.2 ≤ m.2: contradiction.
      have hx : m.2 < m'.2 := by
        rw [h1]
        exact hs' x (List.mem_cons_self x t)
      have hmm2 : m'.2 ≤ m.2 := by
        refine hm m' ?_
        rw [List.nil_append, h2]
        exact List.mem_cons_of_mem m
          (List.mem_append_right t (List.mem_cons_self m' l2'))
      exact absurd (lt_of_le_of_lt hmm2 hx) (lt_irrefl _)
  | x :: t, l, l2, l1', l2', m, m', h, h', hm, hm', hs, hs' => by
    subst h
    cases l1' with
    | nil =>
      simp only [List.nil_append, List.cons_append] at h'
      obtain ⟨h1, h2⟩ := List.cons_eq_cons.mp h'
      -- m' is the head of l, so m' = x ∈ l1: m'.2 < m.2;
      -- but m ∈ l gives m.2 ≤ m'.2: contradiction.
      have hx : m'.2 < m.2 := by
        rw [← h1]
        exact hs x (List.mem_cons_self x t)
      have hmm2 : m.2 ≤ m'.2 := by
        refine hm' m ?_
        exact List.mem_cons_of_mem x
          (List.mem_append_right t (List.mem_cons_self m l2))
      exact absurd (lt_of_le_of_lt hmm2 hx) (lt_irrefl _)
    | cons x' t' =>
      simp only [List.cons_append] at h'
      obtain ⟨h1, h2⟩ := List.cons_eq_cons.mp h'
      refine firstMax_unique t (Eq.refl (t ++ m :: l2)) h2 ?_ ?_ ?_ ?_
      · exact fun p hp => hm p (List.mem_cons_of_mem x hp)
      · exact fun p hp => hm' p (List.mem_cons_of_mem x hp)
      · exact fun p hp => hs p (List.mem_cons_of_mem x hp)
      · exact fun p hp => hs' p (List.mem_cons_of_mem x' hp)

theorem runPeak_cons_spec (p : Int × ℚ) (l : List (Int × ℚ)) :
    ∃ l1 l2, p :: l = l1 ++ (runPeak p.1 p.2 l) :: l2
      ∧ (∀ q ∈ p :: l, q.2 ≤ (runPeak p.1 p.2 l).2)
      ∧ ∀ q ∈ l1, q.2 < (runPeak p.1 p.2 l).2 := by
  obtain ⟨l1, l2, heq, hstr⟩ := runPeak_split l p.1 p.2
  have heq' : p :: l = l1 ++ runPeak p.1 p.2 l :: l2 := heq
  refine ⟨l1, l2, heq', ?_, hstr⟩
  intro q hq
  rcases List.mem_cons.mp hq with h | h
  · rw [h]
    exact (runPeak_max l p.1 p.2).1
  · exact (runPeak_max l p.1 p.2).2 q h

theorem runPeak_cons_eq_argmax (p : Int × ℚ) (l : List (Int × ℚ)) :
    argmaxEarliest (p :: l) = some (runPeak p.1 p.2 l) := by
  cases ha : argmaxEarliest (p :: l) with
  | none => exact absurd ((argmaxEarliest_eq_none _).mp ha) (by simp)
  | some m =>
    obtain ⟨a1, a2, haeq, hamax, hastr⟩ := argmaxEarliest_spec _ m ha
    obtain ⟨l1, l2, heq, hmax, hstr⟩ := runPeak_cons_spec p l
    rw [firstMax_unique a1 haeq heq hamax hmax hastr hstr]

theorem runPeak_zero_spec (l : List (Int × ℚ)) (hpos : ∃ q ∈ l, 0 < q.2) :
    ∃ l1 l2, l = l1 ++ (runPeak 0 0 l) :: l2
      ∧ (∀ q ∈ l, q.2 ≤ (runPeak 0 0 l).2)
      ∧ ∀ q ∈ l1, q.2 < (runPeak 0 0 l).2 := by
  obtain ⟨l1, l2, heq, hstr⟩ := runPeak_split l 0 0
  obtain ⟨q0, hq0, hq0pos⟩ := hpos
  have hrpos : 0 < (runPeak 0 0 l).2 :=
    lt_of_lt_of_le hq0pos ((runPeak_max l 0 0).2 q0 hq0)
  cases l1 with
  | nil =>
    simp only [List.nil_append] at heq
    obtain ⟨h1, _⟩ := List.cons_eq_cons.mp heq
    rw [← h1] at hrpos
    exact absurd hrpos (lt_irrefl 0)
  | cons x l1t =>
    simp only [List.cons_append] at heq
    obtain ⟨h1, h2⟩ := List.cons_eq_cons.mp heq
    exact ⟨l1t, l2, h2, (runPeak_max l 0 0).2,
      fun q hq => hstr q (List.mem_cons_of_mem x hq)⟩

theorem runPeak_zero_eq_argmax (l : List (Int × ℚ)) (hpos : ∃ q ∈ l, 0 < q.2) :
    argmaxEarliest l = some (runPeak 0 0 l) := by
  cases ha : argmaxEarliest l with
  | none =>
    obtain ⟨q, hq, _⟩ := hpos
    rw [(argmaxEarliest_eq_none l).mp ha] at hq
    cases hq
  | some m =>
    obtain ⟨a1, a2, haeq, hamax, hastr⟩ := argmaxEarliest_spec _ m ha
    obtain ⟨l1, l2, heq, hmax, hstr⟩ := runPeak_zero_spec l hpos
    rw [firstMax_unique a1 haeq heq hamax hmax hastr hstr]

/-- Transfer a first-maximum decomposition of the (decade, value) pairs
back to the rows: the result is the decade of an eligible row with
maximal value, and the earliest such decade when decades increase. -/
theorem peak_transfer (v : SRow → ℚ) (e : List SRow)
    (hsort : e.Pairwise (fun a b => a.d < b.d))
    (l1 l2 : List (Int × ℚ)) (rp : Int × ℚ)
    (hdec : e.map (fun r => (r.d, v r)) = l1 ++ rp :: l2)
    (hmax : ∀ q ∈ e.map (fun r => (r.d, v r)), q.2 ≤ rp.2)
    (hstr : ∀ q ∈ l1, q.2 < rp.2) :
    ∃ r' ∈ e, rp.1 = r'.d ∧ (∀ q ∈ e, v q ≤ v r')
      ∧ ∀ q ∈ e, v q = v r' → r'.d ≤ q.d := by
  obtain ⟨s, t, hes, hms, hmt⟩ := List.map_eq_append_iff.mp hdec
  obtain ⟨r', t2, hts, hfr, hmt2⟩ := List.map_eq_cons_iff.mp hmt
  subst hts
  subst hes
  have hrmem : r' ∈ s ++ r' :: t2 :=
    List.mem_append_right s (List.mem_cons_self r' t2)
  have hvr : v r' = rp.2 := by rw [← hfr]
  have hdr : rp.1 = r'.d := by rw [← hfr]
  refine ⟨r', hrmem, hdr, ?_, ?_⟩
  · intro q hq
    have := hmax (q.d, v q) (List.mem_map_of_mem _ hq)
    rw [hvr]
    exact this
  · intro q hq hvq
    rcases List.mem_append.mp hq with hq1 | hq2
    · exfalso
      have : (q.d, v q) ∈ l1 := by
        rw [← hms]
        exact List.mem_map_of_mem _ hq1
      have hlt := hstr _ this
      rw [hvq, hvr] at hlt
      exact absurd hlt (lt_irrefl _)
    · rcases List.mem_cons.mp hq2 with hq3 | hq4
      · rw [hq3]
      · have hpair : (fun a b : SRow => a.d < b.d) r' q := by
          have hsub : (r' :: t2).Pairwise (fun a b : SRow => a.d < b.d) :=
            (List.pairwise_append.mp hsort).2.1
          exact (List.pairwise_cons.mp hsub).1 q hq4
        exact le_of_lt hpair

/-- The same-word fold updates the two peaks exactly as `runPeak` over
the eligible rows' (decade, value) pairs, and adds every row's tf/df to
the sums unconditionally. -/
theorem foldl_elseStep_spec (totals : Totals) (rows : List SRow) :
    ∀ st : PState,
      ((rows.foldl (elseStep totals) st).ptd, (rows.foldl (elseStep totals) st).ptv)
          = runPeak st.ptd st.ptv ((eligRows totals rows).map (pairTf totals))
      ∧ ((rows.foldl (elseStep totals) st).pdd, (rows.foldl (elseStep totals) st).pdv)
          = runPeak st.pdd st.pdv ((eligRows totals rows).map (pairDf totals))
      ∧ (rows.foldl (elseStep totals) st).stf = st.stf + sumTf rows
      ∧ (rows.foldl (elseStep totals) st).sdf = st.sdf + sumDf rows := by
  induction rows with
  | nil =>
    intro st
    simp [eligRows, runPeak, sumTf, sumDf]
  | cons r rest ih =>
    intro st
    simp only [List.foldl_cons]
    by_cases he : elig totals r.d
    · have her : eligRows totals (r :: rest) = r :: eligRows totals rest := by
        simp [eligRows, he]
      have hst : elseStep totals st r =
          { ptd := if st.ptv < ratTf totals r then r.d else st.ptd
            ptv := if st.ptv < ratTf totals r then ratTf totals r else st.ptv
            pdd := if st.pdv < ratDf totals r then r.d else st.pdd
            pdv := if st.pdv < ratDf totals r then ratDf totals r else st.pdv
            stf := st.stf + r.tf
            sdf := st.sdf + r.df } := by
        simp [elseStep, he]
      obtain ⟨ih1, ih2, ih3, ih4⟩ := ih (elseStep totals st r)
      refine ⟨?_, ?_, ?_, ?_⟩
      · rw [ih1, her, List.map_cons, hst]
        show _ = runPeak st.ptd st.ptv ((r.d, ratTf totals r) :: _)
        by_cases hlt : st.ptv < ratTf totals r <;>
          simp [runPeak, hlt]
      · rw [ih2, her, List.map_cons, hst]
        show _ = runPeak st.pdd st.pdv ((r.d, ratDf totals r) :: _)
        by_cases hlt : st.pdv < ratDf totals r <;>
          simp [runPeak, hlt]
      · rw [ih3, hst]
        show st.stf + r.tf + sumTf rest = st.stf + sumTf (r :: rest)
        simp [sumTf]
        omega
      · rw [ih4, hst]
        show st.sdf + r.df + sumDf rest = st.sdf + sumDf (r :: rest)
        simp [sumDf]
        omega
    · have her : eligRows totals (r :: rest) = eligRows totals rest := by
        simp [eligRows, he]
      have hst : elseStep totals st r =
          { st with stf := st.stf + r.tf, sdf := st.sdf + r.df } := by
        simp [elseStep, he]
      obtain ⟨ih1, ih2, ih3, ih4⟩ := ih (elseStep totals st r)
      refine ⟨?_, ?_, ?_, ?_⟩
      · rw [ih1, her, hst]
      · rw [ih2, her, hst]
      · rw [ih3, hst]
        show st.stf + r.tf + sumTf rest = st.stf + sumTf (r :: rest)
        simp [sumTf]
        omega
      · rw [ih4, hst]
        show st.sdf + r.df + sumDf rest = st.sdf + sumDf (r :: rest)
        simp [sumDf]
        omega

/-- Peak scan started from a genuine first eligible row: the result is
the earliest maximal eligible decade. -/
theorem peak_side_cons (v : SRow → ℚ) (first : SRow) (e' : List SRow)
    (hsort : (first :: e').Pairwise (fun a b : SRow => a.d < b.d)) :
    (runPeak first.d (v first) (e'.map (fun r => (r.d, v r)))).1
        = specPeak ((first :: e').map (fun r => (r.d, v r)))
    ∧ ∃ r' ∈ first :: e',
        (runPeak first.d (v first) (e'.map (fun r => (r.d, v r)))).1 = r'.d
        ∧ (∀ q ∈ first :: e', v q ≤ v r')
        ∧ ∀ q ∈ first :: e', v q = v r' → r'.d ≤ q.d := by
  have ha := runPeak_cons_eq_argmax ((first.d, v first)) (e'.map (fun r => (r.d, v r)))
  constructor
  · rw [List.map_cons, specPeak, ha]
  · obtain ⟨l1, l2, heq, hmax, hstr⟩ :=
      runPeak_cons_spec ((first.d, v first)) (e'.map (fun r => (r.d, v r)))
    have hdec : (first :: e').map (fun r => (r.d, v r))
        = l1 ++ (runPeak first.d (v first) (e'.map (fun r => (r.d, v r)))) :: l2 := by
      rw [List.map_cons]
      exact heq
    refine peak_transfer v (first :: e') hsort l1 l2 _ hdec ?_ hstr
    intro q hq
    rw [List.map_cons] at hq
    exact hmax q hq

/-- Peak scan started from the (0, 0) sentinel: when some eligible value
is positive, the result is the earliest maximal eligible decade. -/
theorem peak_side_zero (v : SRow → ℚ) (e : List SRow)
    (hsort : e.Pairwise (fun a b : SRow => a.d < b.d))
    (hpos : ∃ r ∈ e, 0 < v r) :
    (runPeak 0 0 (e.map (fun r => (r.d, v r)))).1
        = specPeak (e.map (fun r => (r.d, v r)))
    ∧ ∃ r' ∈ e, (runPeak 0 0 (e.map (fun r => (r.d, v r)))).1 = r'.d
        ∧ (∀ q ∈ e, v q ≤ v r')
        ∧ ∀ q ∈ e, v q = v r' → r'.d ≤ q.d := by
  have hpos' : ∃ q ∈ e.map (fun r => (r.d, v r)), 0 < q.2 := by
    obtain ⟨r, hr, hp⟩ := hpos
    exact ⟨(r.d, v r), List.mem_map_of_mem _ hr, hp⟩
  have ha := runPeak_zero_eq_argmax (e.map (fun r => (r.d, v r))) hpos'
  constructor
  · rw [specPeak, ha]
  · obtain ⟨l1, l2, heq, hmax, hstr⟩ :=
      runPeak_zero_spec (e.map (fun r => (r.d, v r))) hpos'
    exact peak_transfer v e hsort l1 l2 _ heq hmax hstr

/-! ## Claim C5: normalized peak-decade selection -/

/-- C5 (amended): over a per-word row list with strictly increasing
decades, (i) if no decade is eligible both stored peaks are the sentinel
0; (ii) provided the word's first decade is eligible or some eligible
decade has positive normalized tf, the stored peak_tf_decade is the
earliest eligible decade maximizing the normalized tf (ties keep the
earlier decade; sub-threshold and unavailable-totals decades excluded);
(iii) likewise for df.  The proviso in (ii)/(iii) is forced: an eligible
decade whose normalized value is zero can never displace the zero
sentinel, see the counterexample. -/
theorem claim_C5_peak_selection (totals : Totals) (first : SRow)
    (rest : List SRow)
    (hsorted : (first :: rest).Pairwise (fun a b : SRow => a.d < b.d)) :
    (eligRows totals (first :: rest) = [] →
        (summarizeWord totals first rest).peak_tf = 0
        ∧ (summarizeWord totals first rest).peak_df = 0)
    ∧ ((elig totals first.d
          ∨ ∃ r ∈ eligRows totals (first :: rest), 0 < ratTf totals r) →
        (summarizeWord totals first rest).peak_tf
            = specPeak ((eligRows totals (first :: rest)).map
                (fun r => (r.d, ratTf totals r)))
        ∧ ∃ r' ∈ eligRows totals (first :: rest),
            (summarizeWord totals first rest).peak_tf = r'.d
            ∧ (∀ q ∈ eligRows totals (first :: rest),
                ratTf totals q ≤ ratTf totals r')
            ∧ ∀ q ∈ eligRows totals (first :: rest),
                ratTf totals q = ratTf totals r' → r'.d ≤ q.d)
    ∧ ((elig totals first.d
          ∨ ∃ r ∈ eligRows totals (first :: rest), 0 < ratDf totals r) →
        (summarizeWord totals first rest).peak_df
            = specPeak ((eligRows totals (first :: rest)).map
                (fun r => (r.d, ratDf totals r)))
        ∧ ∃ r' ∈ eligRows totals (first :: rest),
            (summarizeWord totals first rest).peak_df = r'.d
            ∧ (∀ q ∈ eligRows totals (first :: rest),
                ratDf totals q ≤ ratDf totals r')
            ∧ ∀ q ∈ eligRows totals (first :: rest),
                ratDf totals q = ratDf totals r' → r'.d ≤ q.d) := by
  have F := foldl_elseStep_spec totals rest (initP totals first)
  have hptd : (summarizeWord totals first rest).peak_tf
      = (runPeak (initP totals first).ptd (initP totals first).ptv
          ((eligRows totals rest).map (pairTf totals))).1 := congrArg Prod.fst F.1
  have hpdd : (summarizeWord totals first rest).peak_df
      = (runPeak (initP totals first).pdd (initP totals first).pdv
          ((eligRows totals rest).map (pairDf totals))).1 :=
    congrArg Prod.fst F.2.1
  have hsorte : (eligRows totals (first :: rest)).Pairwise
      (fun a b : SRow => a.d < b.d) :=
    List.Pairwise.sublist (List.filter_sublist _) hsorted
  by_cases hf : elig totals first.d
  · have hi : initP totals first
        = ⟨first.d, ratTf totals first, first.d, ratDf totals first,
            first.tf, first.df⟩ := by
      simp [initP, hf]
    have he : eligRows totals (first :: rest) = first :: eligRows totals rest := by
      simp [eligRows, hf]
    rw [he] at hsorte
    have htf := peak_side_cons (fun r => ratTf totals r) first
      (eligRows totals rest) hsorte
    have hdf := peak_side_cons (fun r => ratDf totals r) first
      (eligRows totals rest) hsorte
    have hptd' : (summarizeWord totals first rest).peak_tf
        = (runPeak first.d (ratTf totals first)
            ((eligRows totals rest).map (fun r => (r.d, ratTf totals r)))).1 :=
      hptd.trans (by rw [hi]; rfl)
    have hpdd' : (summarizeWord totals first rest).peak_df
        = (runPeak first.d (ratDf totals first)
            ((eligRows totals rest).map (fun r => (r.d, ratDf totals r)))).1 :=
      hpdd.trans (by rw [hi]; rfl)
    refine ⟨?_, ?_, ?_⟩
    · intro he0
      rw [he] at he0
      exact absurd he0 (List.cons_ne_nil _ _)
    · intro _
      rw [he]
      refine ⟨hptd'.trans htf.1, ?_⟩
      obtain ⟨r', hr', hd, hmax, hearl⟩ := htf.2
      exact ⟨r', hr', hptd'.trans hd, hmax, hearl⟩
    · intro _
      rw [he]
      refine ⟨hpdd'.trans hdf.1, ?_⟩
      obtain ⟨r', hr', hd, hmax, hearl⟩ := hdf.2
      exact ⟨r', hr', hpdd'.trans hd, hmax, hearl⟩
  · have hi : initP totals first = ⟨0, 0, 0, 0, first.tf, first.df⟩ := by
      simp [initP, hf]
    have he : eligRows totals (first :: rest) = eligRows totals rest := by
      simp [eligRows, hf]
    rw [he] at hsorte
    have hptd' : (summarizeWord totals first rest).peak_tf
        = (runPeak 0 0
            ((eligRows totals rest).map (fun r => (r.d, ratTf totals r)))).1 :=
      hptd.trans (by rw [hi]; rfl)
    have hpdd' : (summarizeWord totals first rest).peak_df
        = (runPeak 0 0
            ((eligRows totals rest).map (fun r => (r.d, ratDf totals r)))).1 :=
      hpdd.trans (by rw [hi]; rfl)
    refine ⟨?_, ?_, ?_⟩
    · intro he0
      rw [he] at he0
      constructor
      · rw [hptd', he0]
        simp [runPeak]
      · rw [hpdd', he0]
        simp [runPeak]
    · intro hOr
      have hpos : ∃ r ∈ eligRows totals rest, 0 < ratTf totals r := by
        rcases hOr with h1 | h2
        · exact absurd h1 hf
        · rw [he] at h2
          exact h2
      have htf := peak_side_zero (fun r => ratTf totals r)
        (eligRows totals rest) hsorte hpos
      rw [he]
      refine ⟨hptd'.trans htf.1, ?_⟩
      obtain ⟨r', hr', hd, hmax, hearl⟩ := htf.2
      exact ⟨r', hr', hptd'.trans hd, hmax, hearl⟩
    · intro hOr
      have hpos : ∃ r ∈ eligRows totals rest, 0 < ratDf totals r := by
        rcases hOr with h1 | h2
        · exact absurd h1 hf
        · rw [he] at h2
          exact h2
      have hdf := peak_side_zero (fun r => ratDf totals r)
        (eligRows totals rest) hsorte hpos
      rw [he]
      refine ⟨hpdd'.trans hdf.1, ?_⟩
      obtain ⟨r', hr', hd, hmax, hearl⟩ := hdf.2
      exact ⟨r', hr', hpdd'.trans hd, hmax, hearl⟩

/-- Witness for C5 at a one-row word over an eligible decade. -/
theorem claim_C5_witness :
    (summarizeWord totals1950 ⟨1950, 150, 15⟩ []).peak_tf
        = specPeak ((eligRows totals1950 [⟨1950, 150, 15⟩]).map
            (fun r => (r.d, ratTf totals1950 r)))
    ∧ (summarizeWord totals1950 ⟨1950, 150, 15⟩ []).peak_df
        = specPeak ((eligRows totals1950 [⟨1950, 150, 15⟩]).map
            (fun r => (r.d, ratDf totals1950 r))) :=
  ⟨((claim_C5_peak_selection totals1950 ⟨1950, 150, 15⟩ [] (by simp)).2.1
      (Or.inl (by decide))).1,
   ((claim_C5_peak_selection totals1950 ⟨1950, 150, 15⟩ [] (by simp)).2.2
      (Or.inl (by decide))).1⟩

/-- C5 counterexample: word rows (1790, tf 5) then (1800, tf 0), where
1790 is below the page threshold and 1800 is eligible.  The claim's
"earliest eligible decade maximizing tf/total" is 1800, but the stored
peak_tf_decade is the sentinel 0: an eligible decade with normalized
value 0 never displaces the zero running peak. -/
theorem claim_C5_counterexample :
    (summarizeWord totalsCex ⟨1790, 5, 3⟩ [⟨1800, 0, 0⟩]).peak_tf = 0
    ∧ eligRows totalsCex [⟨1790, 5, 3⟩, ⟨1800, 0, 0⟩] = [⟨1800, 0, 0⟩]
    ∧ specPeak ((eligRows totalsCex [⟨1790, 5, 3⟩, ⟨1800, 0, 0⟩]).map
        (fun r => (r.d, ratTf totalsCex r))) = 1800
    ∧ (0 : Int) ≠ 1800 := by decide

/-! ## Claim C6: exactly one summary row per word -/

theorem foldl_stepB_same (totals : Totals) (w : Str) :
    ∀ (rs : List SRow) (out : List (Str × FrequencyData)) (st : PState),
      (rs.map (fun r => (w, r))).foldl (stepB totals) (out, some w, st)
        = (out, some w, rs.foldl (elseStep totals) st)
  | [], out, st => rfl
  | r :: rs, out, st => by
    simp only [List.map_cons, List.foldl_cons]
    have hstep : stepB totals (out, some w, st) (w, r)
        = (out, some w, elseStep totals st r) := by
      simp [stepB]
    rw [hstep]
    exact foldl_stepB_same totals w rs out (elseStep totals st r)

theorem buildFlushesFrom_append (totals : Totals) (a b : List (Str × SRow))
    (acc : List (Str × FrequencyData) × Option Str × PState) :
    buildFlushesFrom totals (a ++ b) acc
      = buildFlushesFrom totals b (a.foldl (stepB totals) acc) := by
  simp [buildFlushesFrom, List.foldl_append]

theorem flattenGroups_cons (g : WGroup) (gs : List WGroup) :
    flattenGroups (g :: gs)
      = ((g.first :: g.rest).map (fun r => (g.w, r))) ++ flattenGroups gs := by
  simp [flattenGroups]

theorem buildFlushesFrom_groups (totals : Totals) :
    ∀ (gs : List WGroup) (out : List (Str × FrequencyData)) (w0 : Str)
      (st : PState),
      List.Chain' (fun a b : Str => a ≠ b) (w0 :: gs.map WGroup.w) →
      buildFlushesFrom totals (flattenGroups gs) (out, some w0, st)
        = out ++ (w0, summaryOf st)
            :: gs.map (fun g => (g.w, summarizeWord totals g.first g.rest))
  | [], out, w0, st, _ => by
    simp [buildFlushesFrom, flattenGroups]
  | g :: gs, out, w0, st, h => by
    rw [List.map_cons] at h
    obtain ⟨h01, hrest⟩ := List.chain'_cons.mp h
    rw [flattenGroups_cons, buildFlushesFrom_append]
    have hstep : stepB totals (out, some w0, st) (g.w, g.first)
        = (out ++ [(w0, summaryOf st)], some g.w, initP totals g.first) := by
      simp [stepB, Ne.symm h01]
    simp only [List.map_cons, List.foldl_cons, hstep]
    rw [foldl_stepB_same totals g.w g.rest (out ++ [(w0, summaryOf st)])
      (initP totals g.first)]
    rw [buildFlushesFrom_groups totals gs (out ++ [(w0, summaryOf st)]) g.w
      (g.rest.foldl (elseStep totals) (initP totals g.first)) hrest]
    simp [summarizeWord]

/-- C6: over a stream grouped by word with pairwise-distinct words, the
builder flushes exactly one (word, summary) row per group, in order —
no duplicates, no omissions — the final word included through the
mandatory final flush; an empty stream flushes nothing; and each word's
sum_tf/sum_df are the plain sums of its rows' tf/df regardless of
threshold eligibility. -/
theorem claim_C6_one_row_per_word (totals : Totals) (gs : List WGroup)
    (first : SRow) (rest : List SRow)
    (hdist : (gs.map WGroup.w).Pairwise (fun a b => a ≠ b)) :
    buildFlushes totals (flattenGroups gs)
      = gs.map (fun g => (g.w, summarizeWord totals g.first g.rest))
    ∧ buildFlushes totals [] = []
    ∧ (summarizeWord totals first rest).sum_tf = sumTf (first :: rest)
    ∧ (summarizeWord totals first rest).sum_df = sumDf (first :: rest) := by
  have hsum : (summarizeWord totals first rest).sum_tf = sumTf (first :: rest)
      ∧ (summarizeWord totals first rest).sum_df = sumDf (first :: rest) := by
    have F := foldl_elseStep_spec totals rest (initP totals first)
    have hif : (initP totals first).stf = first.tf
        ∧ (initP totals first).sdf = first.df := by
      unfold initP
      split <;> exact ⟨rfl, rfl⟩
    constructor
    · have h1 : (summarizeWord totals first rest).sum_tf
          = (initP totals first).stf + sumTf rest := F.2.2.1
      rw [h1, hif.1]
      simp [sumTf]
    · have h2 : (summarizeWord totals first rest).sum_df
          = (initP totals first).sdf + sumDf rest := F.2.2.2
      rw [h2, hif.2]
      simp [sumDf]
  refine ⟨?_, rfl, hsum.1, hsum.2⟩
  cases gs with
  | nil => rfl
  | cons g gs' =>
    unfold buildFlushes
    rw [flattenGroups_cons, buildFlushesFrom_append]
    have hstep : stepB totals ([], none, ⟨0, 0, 0, 0, 0, 0⟩) (g.w, g.first)
        = ([], some g.w, initP totals g.first) := by
      simp [stepB]
    simp only [List.map_cons, List.foldl_cons, hstep]
    rw [foldl_stepB_same totals g.w g.rest [] (initP totals g.first)]
    rw [buildFlushesFrom_groups totals gs' [] g.w
      (g.rest.foldl (elseStep totals) (initP totals g.first))
      (List.Pairwise.chain' (by rw [← List.map_cons]; exact hdist))]
    simp [summarizeWord]

/-- Witness for C6 at a two-word grouped stream. -/
theorem claim_C6_witness :
    buildFlushes totals1950
        (flattenGroups ([⟨wThe, ⟨1950, 150, 15⟩, []⟩, ⟨wDo, ⟨1960, 7, 2⟩, []⟩]
          : List WGroup))
      = ([⟨wThe, ⟨1950, 150, 15⟩, []⟩, ⟨wDo, ⟨1960, 7, 2⟩, []⟩]
          : List WGroup).map
          (fun g => (g.w, summarizeWord totals1950 g.first g.rest))
    ∧ buildFlushes totals1950 [] = []
    ∧ (summarizeWord totals1950 ⟨1950, 150, 15⟩ []).sum_tf
        = sumTf [⟨1950, 150, 15⟩]
    ∧ (summarizeWord totals1950 ⟨1950, 150, 15⟩ []).sum_df
        = sumDf [⟨1950, 150, 15⟩] :=
  claim_C6_one_row_per_word totals1950
    [⟨wThe, ⟨1950, 150, 15⟩, []⟩, ⟨wDo, ⟨1960, 7, 2⟩, []⟩]
    ⟨1950, 150, 15⟩ [] (by decide)

/-! ## Claim C4: which shard files get materialized -/

theorem buildBuckets_eq_fold (md5 : Str → Str) (totals : Totals)
    (rows : List (Str × SRow)) :
    buildBuckets md5 totals rows
      = bucketsFoldFrom md5 (buildFlushes totals rows) [] := rfl

theorem lookupA_addBucket_ne (p q : Str) (e : Str × FrequencyData)
    (hne : q ≠ p) :
    ∀ bs : List (Str × List (Str × FrequencyData)),
      lookupA (addBucket bs p e) q = lookupA bs q
  | [] => by
    simp only [addBucket, lookupA]
    rw [if_neg (fun h => hne h.symm)]
  | b :: rest => by
    by_cases hb : b.1 = p
    · simp only [addBucket, if_pos hb, lookupA]
      rw [if_neg (by rw [hb]; exact fun h => hne h.symm),
        if_neg (by rw [hb]; exact fun h => hne h.symm)]
    · simp only [addBucket, if_neg hb, lookupA]
      by_cases hq : b.1 = q
      · rw [if_pos hq, if_pos hq]
      · rw [if_neg hq, if_neg hq]
        exact lookupA_addBucket_ne p q e hne rest

theorem lookupA_addBucket_eq (p : Str) (e : Str × FrequencyData) :
    ∀ bs : List (Str × List (Str × FrequencyData)),
      ∃ es, lookupA (addBucket bs p e) p = some es ∧ es ≠ []
  | [] => ⟨[e], by simp [addBucket, lookupA], by simp⟩
  | b :: rest => by
    by_cases hb : b.1 = p
    · exact ⟨b.2 ++ [e], by simp [addBucket, hb, lookupA], by simp⟩
    · obtain ⟨es, hes, hne⟩ := lookupA_addBucket_eq p e rest
      exact ⟨es, by simp only [addBucket, if_neg hb, lookupA, if_neg hb]; exact hes,
        hne⟩

theorem bucketsFold_spec (md5 : Str → Str) :
    ∀ (fl : List (Str × FrequencyData))
      (bs : List (Str × List (Str × FrequencyData))) (p : Str),
      (lookupA (bucketsFoldFrom md5 fl bs) p ≠ none
        ↔ (lookupA bs p ≠ none ∨ ∃ we ∈ fl, (md5 we.1).take 2 = p))
      ∧ ((∀ q es, lookupA bs q = some es → es ≠ []) →
          ∀ q es, lookupA (bucketsFoldFrom md5 fl bs) q = some es → es ≠ [])
  | [], bs, p => by simp [bucketsFoldFrom]
  | we :: fl, bs, p => by
    have hstep : bucketsFoldFrom md5 (we :: fl) bs
        = bucketsFoldFrom md5 fl
            (addBucket bs ((md5 we.1).take 2) ((md5 we.1).drop 2, we.2)) := rfl
    have ih := bucketsFold_spec md5 fl
      (addBucket bs ((md5 we.1).take 2) ((md5 we.1).drop 2, we.2)) p
    rw [hstep]
    constructor
    · rw [ih.1]
      by_cases hp : p = (md5 we.1).take 2
      · obtain ⟨es, hes, _⟩ := lookupA_addBucket_eq ((md5 we.1).take 2)
          ((md5 we.1).drop 2, we.2) bs
        subst hp
        simp [hes]
      · rw [lookupA_addBucket_ne _ _ _ hp]
        constructor
        · rintro (h | ⟨u, hu, hup⟩)
          · exact Or.inl h
          · exact Or.inr ⟨u, List.mem_cons_of_mem we hu, hup⟩
        · rintro (h | ⟨u, hu, hup⟩)
          · exact Or.inl h
          · rcases List.mem_cons.mp hu with h1 | h1
            · exact absurd (h1 ▸ hup) (fun h => hp h.symm)
            · exact Or.inr ⟨u, h1, hup⟩
    · intro hbs
      refine ih.2 ?_
      intro q es hq
      by_cases hqp : q = (md5 we.1).take 2
      · obtain ⟨es', hes', hne'⟩ := lookupA_addBucket_eq ((md5 we.1).take 2)
          ((md5 we.1).drop 2, we.2) bs
        subst hqp
        rw [hq] at hes'
        injection hes' with hes'
        rw [hes']
        exact hne'
      · rw [lookupA_addBucket_ne _ _ _ hqp] at hq
        exact hbs q es hq

/-- C4 (amended): a shard file exists exactly for the 2-hex prefixes
that received at least one flushed word — a prefix into which no word
hashes gets no file at all (the write loop runs over `buckets.items()`
of a `defaultdict`) — and every file that is written is nonempty. -/
theorem claim_C4_only_hit_buckets_materialized (md5 : Str → Str)
    (totals : Totals) (rows : List (Str × SRow)) (p : Str)
    (es : List (Str × FrequencyData)) :
    (lookupA (buildBuckets md5 totals rows) p ≠ none
      ↔ ∃ we ∈ buildFlushes totals rows, (md5 we.1).take 2 = p)
    ∧ (lookupA (buildBuckets md5 totals rows) p = some es → es ≠ []) := by
  have h := bucketsFold_spec md5 (buildFlushes totals rows) [] p
  rw [buildBuckets_eq_fold]
  constructor
  · rw [h.1]
    simp [lookupA]
  · intro hes
    exact h.2 (fun q es' hq => by simp [lookupA] at hq) p es hes

/-- Witness for C4: the single bucket file written for a one-word build
is nonempty. -/
theorem claim_C4_witness :
    ([(wThe, ⟨1950, 1950, 150, 15⟩)] : List (Str × FrequencyData)) ≠ [] :=
  (claim_C4_only_hit_buckets_materialized md5toy totals1950
    [(wThe, ⟨1950, 150, 15⟩)] [0, 0] [(wThe, ⟨1950, 1950, 150, 15⟩)]).2
    (by decide)

/-- C4 counterexample: a build over a one-word stream writes exactly one
bucket file, not 256; the file for prefix [1, 1] is absent. -/
theorem claim_C4_counterexample :
    (buildBuckets md5toy totals1950 [(wThe, ⟨1950, 150, 15⟩)]).length = 1
    ∧ lookupA (buildBuckets md5toy totals1950 [(wThe, ⟨1950, 150, 15⟩)]) [1, 1]
        = none
    ∧ (1 : Nat) ≠ 256 := by decide

/-! ## Aggregator lemmas (claim C7) -/

theorem strLt_irrefl : ∀ s : Str, strLt s s = false
  | [] => rfl
  | c :: t => by simp [strLt, strLt_irrefl t]

theorem strLt_total : ∀ s t : Str, strLt s t = true ∨ strLt t s = true ∨ s = t
  | [], [] => Or.inr (Or.inr rfl)
  | [], _ :: _ => Or.inl (by simp [strLt])
  | _ :: _, [] => Or.inr (Or.inl (by simp [strLt]))
  | a :: s, b :: t => by
    by_cases hab : a < b
    · exact Or.inl (by simp [strLt, hab])
    · by_cases hba : b < a
      · exact Or.inr (Or.inl (by simp [strLt, hba]))
      · have he : a = b := by omega
        subst he
        rcases strLt_total s t with h | h | h
        · exact Or.inl (by simp [strLt, h])
        · exact Or.inr (Or.inl (by simp [strLt, h]))
        · exact Or.inr (Or.inr (by rw [h]))

theorem strLt_trans : ∀ s t u : Str,
    strLt s t = true → strLt t u = true → strLt s u = true
  | [], t, u => by
    intro h1 h2
    cases t with
    | nil => simp [strLt] at h1
    | cons b bt =>
      cases u with
      | nil => simp [strLt] at h2
      | cons c ct => simp [strLt]
  | a :: s, t, u => by
    intro h1 h2
    cases t with
    | nil => simp [strLt] at h1
    | cons b bt =>
      cases u with
      | nil => simp [strLt] at h2
      | cons c ct =>
        simp only [strLt] at h1 h2 ⊢
        by_cases hab : a < b
        · by_cases hbc : b < c
          · simp [show a < c from lt_trans hab hbc]
          · by_cases hcb : c < b
            · simp [hbc, hcb] at h2
            · have : b = c := by omega
              subst this
              simp [hab]
        · by_cases hba : b < a
          · simp [hab, hba] at h1
          · have : a = b := by omega
            subst this
            simp [lt_irrefl] at h1
            by_cases hbc : a < c
            · simp [hbc]
            · by_cases hcb : c < a
              · simp [hbc, hcb] at h2
              · have : a = c := by omega
                subst this
                simp [lt_irrefl] at h2
                simp [lt_irrefl]
                exact strLt_trans s bt ct h1 h2

theorem keyLe_iff (k1 k2 : Str × Int) :
    keyLe k1 k2 = true
      ↔ (strLt k1.1 k2.1 = true ∨ (k1.1 = k2.1 ∧ k1.2 ≤ k2.2)) := by
  unfold keyLe
  by_cases h12 : strLt k1.1 k2.1
  · rw [if_pos h12]
    simp [h12]
  · rw [if_neg h12]
    by_cases h21 : strLt k2.1 k1.1
    · rw [if_pos h21]
      constructor
      · intro hF
        cases hF
      · rintro (h | ⟨he, _⟩)
        · exact absurd h h12
        · rw [he, strLt_irrefl] at h21
          cases h21
    · rw [if_neg h21]
      have he : k1.1 = k2.1 := by
        rcases strLt_total k1.1 k2.1 with h | h | h
        · exact absurd h h12
        · exact absurd h h21
        · exact h
      simp [he, strLt_irrefl]

theorem keyLe_total (k1 k2 : Str × Int) :
    keyLe k1 k2 = true ∨ keyLe k2 k1 = true := by
  rcases strLt_total k1.1 k2.1 with h | h | h
  · exact Or.inl ((keyLe_iff k1 k2).mpr (Or.inl h))
  · exact Or.inr ((keyLe_iff k2 k1).mpr (Or.inl h))
  · rcases Int.le_total k1.2 k2.2 with hd | hd
    · exact Or.inl ((keyLe_iff k1 k2).mpr (Or.inr ⟨h, hd⟩))
    · exact Or.inr ((keyLe_iff k2 k1).mpr (Or.inr ⟨h.symm, hd⟩))

theorem keyLe_trans (k1 k2 k3 : Str × Int)
    (h1 : keyLe k1 k2 = true) (h2 : keyLe k2 k3 = true) :
    keyLe k1 k3 = true := by
  rw [keyLe_iff] at h1 h2 ⊢
  rcases h1 with h1 | ⟨he1, hd1⟩
  · rcases h2 with h2 | ⟨he2, _⟩
    · exact Or.inl (strLt_trans _ _ _ h1 h2)
    · rw [he2] at h1
      exact Or.inl h1
  · rcases h2 with h2 | ⟨he2, hd2⟩
    · rw [he1]
      exact Or.inl h2
    · exact Or.inr ⟨he1.trans he2, le_trans hd1 hd2⟩

theorem lookupA_addAgg_ne (k q : Str × Int) (tf df : Int) (hq : q ≠ k) :
    ∀ m, lookupA (addAgg m k tf df) q = lookupA m q
  | [] => by
    simp only [addAgg, lookupA]
    rw [if_neg (fun h => hq h.symm)]
  | e :: rest => by
    by_cases he : e.1 = k
    · simp only [addAgg, if_pos he, lookupA]
      rw [if_neg (by rw [he]; exact fun h => hq h.symm),
        if_neg (by rw [he]; exact fun h => hq h.symm)]
    · simp only [addAgg, if_neg he, lookupA]
      by_cases heq : e.1 = q
      · rw [if_pos heq, if_pos heq]
      · rw [if_neg heq, if_neg heq]
        exact lookupA_addAgg_ne k q tf df hq rest

theorem lookupA_addAgg_eq (k : Str × Int) (tf df : Int) :
    ∀ m, lookupA (addAgg m k tf df) k
      = some (match lookupA m k with
              | some v => (v.1 + tf, v.2 + df)
              | none => (tf, df))
  | [] => by simp [addAgg, lookupA]
  | e :: rest => by
    by_cases he : e.1 = k
    · simp [addAgg, if_pos he, lookupA]
    · simp only [addAgg, if_neg he, lookupA, if_neg he]
      exact lookupA_addAgg_eq k tf df rest

theorem mem_addAgg (k : Str × Int) (tf df : Int) :
    ∀ m x, x ∈ addAgg m k tf df → x.1 = k ∨ ∃ y ∈ m, y.1 = x.1
  | [], x, hx => by
    simp only [addAgg, List.mem_singleton] at hx
    exact Or.inl (by rw [hx])
  | e :: rest, x, hx => by
    by_cases he : e.1 = k
    · simp only [addAgg, if_pos he] at hx
      rcases List.mem_cons.mp hx with h | h
      · exact Or.inr ⟨e, List.mem_cons_self e rest, by rw [h]⟩
      · exact Or.inr ⟨x, List.mem_cons_of_mem e h, rfl⟩
    · simp only [addAgg, if_neg he] at hx
      rcases List.mem_cons.mp hx with h | h
      · exact Or.inr ⟨e, List.mem_cons_self e rest, by rw [h]⟩
      · rcases mem_addAgg k tf df rest x h with h1 | ⟨y, hy, hyx⟩
        · exact Or.inl h1
        · exact Or.inr ⟨y, List.mem_cons_of_mem e hy, hyx⟩

theorem pairwise_addAgg (k : Str × Int) (tf df : Int) :
    ∀ m, m.Pairwise (fun e1 e2 : (Str × Int) × Int × Int => e1.1 ≠ e2.1) →
      (addAgg m k tf df).Pairwise (fun e1 e2 => e1.1 ≠ e2.1)
  | [], _ => by simp [addAgg]
  | e :: rest, hp => by
    obtain ⟨h1, h2⟩ := List.pairwise_cons.mp hp
    by_cases he : e.1 = k
    · simp only [addAgg, if_pos he]
      exact List.pairwise_cons.mpr ⟨fun y hy => h1 y hy, h2⟩
    · simp only [addAgg, if_neg he]
      refine List.pairwise_cons.mpr ⟨?_, pairwise_addAgg k tf df rest h2⟩
      intro y hy
      rcases mem_addAgg k tf df rest y hy with hk | ⟨z, hz, hzy⟩
      · rw [hk]
        exact he
      · rw [← hzy]
        exact h1 z hz

theorem aggOf_eq_aggFrom (lines : List Str) : aggOf lines = aggFrom lines [] :=
  rfl

theorem pairwise_aggFrom : ∀ (lines : List Str)
    (m : List ((Str × Int) × Int × Int)),
    m.Pairwise (fun e1 e2 => e1.1 ≠ e2.1) →
    (aggFrom lines m).Pairwise (fun e1 e2 => e1.1 ≠ e2.1)
  | [], _, h => h
  | line :: lines, m, h => by
    cases hp : parseLine line with
    | none =>
      have hstep : aggFrom (line :: lines) m = aggFrom lines m := by
        simp [aggFrom, hp]
      rw [hstep]
      exact pairwise_aggFrom lines m h
    | some rec =>
      obtain ⟨w, dec, tf, df⟩ := rec
      have hstep : aggFrom (line :: lines) m
          = aggFrom lines (addAgg m (w, dec) tf df) := by
        simp [aggFrom, hp]
      rw [hstep]
      exact pairwise_aggFrom lines _ (pairwise_addAgg (w, dec) tf df m h)

theorem aggFrom_lookup : ∀ (lines : List Str)
    (m : List ((Str × Int) × Int × Int)) (k : Str × Int),
    lookupA (aggFrom lines m) k
      = match lookupA m k with
        | some v => some (v.1 + (sumsAt lines k).1, v.2 + (sumsAt lines k).2)
        | none =>
          if recsAt lines k = [] then none else some (sumsAt lines k)
  | [], m, k => by
    cases hm : lookupA m k with
    | some v => simp [aggFrom, sumsAt, recsAt, keptRecords, hm]
    | none => simp [aggFrom, sumsAt, recsAt, keptRecords, hm]
  | line :: lines, m, k => by
    cases hp : parseLine line with
    | none =>
      have hstep : aggFrom (line :: lines) m = aggFrom lines m := by
        simp [aggFrom, hp]
      have hrecs : recsAt (line :: lines) k = recsAt lines k := by
        simp [recsAt, keptRecords, List.filterMap_cons, hp]
      have hsums : sumsAt (line :: lines) k = sumsAt lines k := by
        simp [sumsAt, hrecs]
      rw [hstep, hsums, hrecs]
      exact aggFrom_lookup lines m k
    | some rec =>
      obtain ⟨w, dec, tf, df⟩ := rec
      have hstep : aggFrom (line :: lines) m
          = aggFrom lines (addAgg m (w, dec) tf df) := by
        simp [aggFrom, hp]
      rw [hstep, aggFrom_lookup lines (addAgg m (w, dec) tf df) k]
      by_cases hk : ((w, dec) : Str × Int) = k
      · subst hk
        have hrecs : recsAt (line :: lines) (w, dec)
            = (w, dec, tf, df) :: recsAt lines (w, dec) := by
          simp [recsAt, keptRecords, List.filterMap_cons, hp]
        have hs1 : (sumsAt (line :: lines) (w, dec)).1
            = tf + (sumsAt lines (w, dec)).1 := by
          simp [sumsAt, hrecs]
        have hs2 : (sumsAt (line :: lines) (w, dec)).2
            = df + (sumsAt lines (w, dec)).2 := by
          simp [sumsAt, hrecs]
        rw [lookupA_addAgg_eq]
        cases hm : lookupA m (w, dec) with
        | some v =>
          simp only [hs1, hs2, hrecs, hm]
          simp [Int.add_assoc]
        | none =>
          have hsp : sumsAt (line :: lines) (w, dec)
              = (tf + (sumsAt lines (w, dec)).1,
                 df + (sumsAt lines (w, dec)).2) :=
            Prod.ext hs1 hs2
          simp only [hrecs, hm]
          rw [if_neg (List.cons_ne_nil _ _), hsp]
      · have hrecs : recsAt (line :: lines) k = recsAt lines k := by
          simp [recsAt, keptRecords, List.filterMap_cons, hp, hk]
        have hsums : sumsAt (line :: lines) k = sumsAt lines k := by
          simp [sumsAt, hrecs]
        rw [lookupA_addAgg_ne (w, dec) k tf df (fun h => hk h.symm) m,
          hsums, hrecs]

/-! ## Claim C7: the aggregator -/

/-- C7: the aggregator sums tf/df per (word, decade) with the bare word
extracted before `_`/`.` and lowercased; the decade is floor(year/10)*10
(including negative years); malformed lines and rejected tokens are
skipped, never fatal; output rows are sorted by (word, decade) ascending
with distinct keys; and the concrete scenario: the two `the_DET` raw
records aggregate to one row ("the", 1950, 150, 15), whose one-row build
yields sum_tf 150, sum_df 15 and peak decades 1950/1950. -/
theorem claim_C7_aggregator (bad line a b c d w : Str) (year tf df : Int)
    (lines lines2 lines3 : List Str) (k : Str × Int)
    (hbad : parseLine bad = none)
    (hsplit : (stripNL line).splitOn 9 = [a, b, c, d])
    (hw : extract_word a = some w)
    (hyear : pyInt b = some year)
    (htf : pyInt c = some tf)
    (hdf : pyInt d = some df) :
    process_lines [lineThe1, lineThe2] = [((wThe, 1950), (150, 15))]
    ∧ summarizeWord totals1950 ⟨1950, 150, 15⟩ [] = ⟨1950, 1950, 150, 15⟩
    ∧ process_lines (bad :: lines) = process_lines lines
    ∧ parseLine line = some (w, year.fdiv 10 * 10, tf, df)
    ∧ parseLine lineNeg = some ([97], -10, 1, 1)
    ∧ lookupA (aggOf lines2) k
        = (if recsAt lines2 k = [] then none else some (sumsAt lines2 k))
    ∧ (process_lines lines3).Pairwise
        (fun e1 e2 => keyLe e1.1 e2.1 = true ∧ e1.1 ≠ e2.1) := by
  refine ⟨by decide, by decide, ?_, ?_, by decide, ?_, ?_⟩
  · unfold process_lines
    congr 1
    rw [aggOf_eq_aggFrom, aggOf_eq_aggFrom]
    simp [aggFrom, hbad]
  · simp [parseLine, hsplit, hw, hyear, htf, hdf]
  · rw [aggOf_eq_aggFrom, aggFrom_lookup lines2 [] k]
    rfl
  · haveI hTr : IsTrans ((Str × Int) × Int × Int) relKey :=
      ⟨fun x y z hxy hyz => keyLe_trans x.1 y.1 z.1 hxy hyz⟩
    haveI hTot : IsTotal ((Str × Int) × Int × Int) relKey :=
      ⟨fun x y => keyLe_total x.1 y.1⟩
    have hsorted : (process_lines lines3).Pairwise relKey :=
      List.sorted_insertionSort relKey (aggOf lines3)
    have hperm : List.Perm (sortPairs (aggOf lines3)) (aggOf lines3) :=
      List.perm_insertionSort relKey _
    have hnodup : (aggOf lines3).Pairwise
        (fun e1 e2 : (Str × Int) × Int × Int => e1.1 ≠ e2.1) := by
      rw [aggOf_eq_aggFrom]
      exact pairwise_aggFrom lines3 [] (by simp)
    have hne : (process_lines lines3).Pairwise
        (fun e1 e2 : (Str × Int) × Int × Int => e1.1 ≠ e2.1) :=
      (hperm.pairwise_iff (fun h => Ne.symm h)).mpr hnodup
    exact hsorted.and hne

/-- Witness for C7 at the two `the_DET` raw lines and a malformed line. -/
theorem claim_C7_witness :
    process_lines [lineThe1, lineThe2] = [((wThe, 1950), (150, 15))]
    ∧ summarizeWord totals1950 ⟨1950, 150, 15⟩ [] = ⟨1950, 1950, 150, 15⟩
    ∧ process_lines ([9] :: [lineThe2]) = process_lines [lineThe2]
    ∧ parseLine lineThe1 = some (wThe, (1950 : Int).fdiv 10 * 10, 100, 10)
    ∧ parseLine lineNeg = some ([97], -10, 1, 1)
    ∧ lookupA (aggOf [lineThe1, lineThe2]) (wThe, 1950)
        = (if recsAt [lineThe1, lineThe2] (wThe, 1950) = [] then none
           else some (sumsAt [lineThe1, lineThe2] (wThe, 1950)))
    ∧ (process_lines [lineThe1, lineThe2]).Pairwise
        (fun e1 e2 => keyLe e1.1 e2.1 = true ∧ e1.1 ≠ e2.1) :=
  claim_C7_aggregator [9] lineThe1 [116, 104, 101, 95, 68, 69, 84]
    [49, 57, 53, 48] [49, 48, 48] [49, 48] wThe 1950 100 10
    [lineThe2] [lineThe1, lineThe2] [lineThe1, lineThe2] (wThe, 1950)
    (by decide) (by decide) (by decide) (by decide) (by decide) (by decide)

end Gngram
